import Mathlib

/-!
Verification development for the daily election-simulation engine
`run-simulations.js`.

Modelling conventions:
* JavaScript numbers are modelled as exact rationals (`ℚ`) in the data
  layer and as exact reals (`ℝ`) in the probability layer (which uses
  the transcendental `exp`).
* The special values `NaN` / `Infinity` / `-Infinity` are modelled by an
  explicit sum type `JSNum` at the places where a claim mentions them
  (`normalizePair` inputs, `winProbD_fast` margins).  Everywhere else the
  engine only ever produces finite values, which are passed as plain
  rationals.
* The `Float32Array` backing the win-probability lookup table is modelled
  by an explicit round-to-nearest-float32 function on `ℝ` (round half up;
  the stored probabilities are irrational, so exact ties do not occur).
* `Math.random()` draws are threaded explicitly: a Monte-Carlo trial takes
  the raw uniform draws as arguments, in the order the source consumes
  them (first the swing draw, then one draw per seat).
-/

namespace Sim

/-- A two-party share pair, the `{D, R}` objects of the source. -/
structure PartisanPair where
  D : ℚ
  R : ℚ
deriving DecidableEq, Repr

/-- A JavaScript number: a finite value or one of the non-finite
specials `NaN`, `Infinity`, `-Infinity`. -/
inductive JSNum where
  | nan
  | posInf
  | negInf
  | fin (x : ℚ)
deriving DecidableEq, Repr

/-- The finite value carried by a `JSNum` (junk value `0` on the
non-finite specials, which the callers never reach). -/
def JSNum.toQ : JSNum → ℚ
  | .fin x => x
  | _ => 0

/-- JavaScript `isFinite`. -/
def JSNum.isFinite : JSNum → Bool
  | .fin _ => true
  | _ => false

/-- JavaScript `+` on numbers: any `NaN` operand gives `NaN`, opposite
infinities give `NaN`, an infinity absorbs finite values, and finite
values add. -/
def jsAdd : JSNum → JSNum → JSNum
  | .nan, _ => .nan
  | _, .nan => .nan
  | .posInf, .negInf => .nan
  | .negInf, .posInf => .nan
  | .posInf, _ => .posInf
  | _, .posInf => .posInf
  | .negInf, _ => .negInf
  | _, .negInf => .negInf
  | .fin a, .fin b => .fin (a + b)

/-- Source `normalizePair` (run-simulations.js:39-44):
`s = D + R`; if `s` is not finite or `s <= 0` return `{D: 50, R: 50}`,
else return `{D: 100*d/s, R: 100*r/s}`. -/
def normalizePair (D R : JSNum) : PartisanPair :=
  match jsAdd D R with
  | .fin s => if s ≤ 0 then ⟨50, 50⟩ else ⟨100 * D.toQ / s, 100 * R.toQ / s⟩
  | _ => ⟨50, 50⟩

/-- `normalizePair` specialised to finite inputs; this is the only case
the rest of the engine ever exercises (all internal call sites pass
finite rationals). -/
def normalizePairQ (d r : ℚ) : PartisanPair :=
  if d + r ≤ 0 then ⟨50, 50⟩ else ⟨100 * d / (d + r), 100 * r / (d + r)⟩

theorem normalizePair_fin (d r : ℚ) :
    normalizePair (.fin d) (.fin r) = normalizePairQ d r := rfl

/-- Source `marginRD`: `pair.R - pair.D`. -/
def marginRD (p : PartisanPair) : ℚ := p.R - p.D

/-- One entry of the `components` array consumed by `weightedCombine`: an
optional pair (`null` signals are `none`) and a weight.  Weights are
exact rationals, so the source's `isFinite(c.w)` test is always true
here. -/
structure Component where
  pair : Option PartisanPair
  w : ℚ
deriving DecidableEq, Repr

/-- A component survives `weightedCombine`'s skip test
`!c || !c.pair || !isFinite(c.w) || c.w <= 0`. -/
def Component.active (c : Component) : Bool :=
  c.pair.isSome && decide (0 < c.w)

/-- Source `weightedCombine` (run-simulations.js:484-494): accumulate
`W`, `D`, `R` over the components that pass the skip test; if the total
weight is non-positive return the neutral pair, else normalize the
weighted averages. -/
def weightedCombine (comps : List Component) : PartisanPair :=
  let act := comps.filter (·.active)
  let W := (act.map (·.w)).sum
  let D := (act.map (fun c => c.w * (c.pair.getD ⟨50, 50⟩).D)).sum
  let R := (act.map (fun c => c.w * (c.pair.getD ⟨50, 50⟩).R)).sum
  if W ≤ 0 then ⟨50, 50⟩ else normalizePairQ (D / W) (R / W)

/-- C5: for inputs whose numeric sum `s = D + R` is finite and strictly
positive, `normalizePair` returns the pair `{100·D/s, 100·R/s}`, whose
two components sum to exactly 100; for every input whose sum is
non-finite, and for every input whose sum is non-positive, it returns
exactly `{D: 50, R: 50}`. -/
theorem normalizePair_spec (D R : JSNum) :
    (∀ s : ℚ, jsAdd D R = .fin s → 0 < s →
      normalizePair D R = ⟨100 * D.toQ / s, 100 * R.toQ / s⟩ ∧
      (normalizePair D R).D + (normalizePair D R).R = 100) ∧
    ((jsAdd D R).isFinite = false → normalizePair D R = ⟨50, 50⟩) ∧
    (∀ s : ℚ, jsAdd D R = .fin s → s ≤ 0 → normalizePair D R = ⟨50, 50⟩) := by
  refine ⟨?_, ?_, ?_⟩
  · intro s hs hpos
    have hDR : ∃ d r, D = .fin d ∧ R = .fin r ∧ d + r = s := by
      cases D <;> cases R <;> simp_all [jsAdd]
    obtain ⟨d, r, hD, hR, hsum⟩ := hDR
    subst hD; subst hR
    have hns : ¬ s ≤ 0 := not_le.mpr hpos
    constructor
    · simp [normalizePair, jsAdd, hsum, hns]
    · have hs0 : s ≠ 0 := ne_of_gt hpos
      simp only [normalizePair, jsAdd, hsum, hns, if_false]
      show 100 * (JSNum.fin d).toQ / s + 100 * (JSNum.fin r).toQ / s = 100
      simp only [JSNum.toQ]
      field_simp
      linarith [hsum]
  · intro hnf
    cases h : jsAdd D R with
    | fin s => simp [h, JSNum.isFinite] at hnf
    | nan => simp [normalizePair, h]
    | posInf => simp [normalizePair, h]
    | negInf => simp [normalizePair, h]
  · intro s hs hle
    simp [normalizePair, hs, hle]

/-- Concrete instantiation of `normalizePair_spec`: the positive-sum case
at `D = 30, R = 90` and the non-positive-sum case at `D = 2, R = -2`. -/
theorem normalizePair_spec_witness :
    normalizePair (.fin 30) (.fin 90) =
      ⟨100 * (JSNum.fin 30).toQ / 120, 100 * (JSNum.fin 90).toQ / 120⟩ ∧
    normalizePair (.fin 2) (.fin (-2)) = ⟨50, 50⟩ :=
  ⟨((normalizePair_spec (.fin 30) (.fin 90)).1 120 (by norm_num [jsAdd])
      (by norm_num)).1,
   (normalizePair_spec (.fin 2) (.fin (-2))).2.2 0 (by norm_num [jsAdd])
      le_rfl⟩

/-- C4: if exactly one component survives the presence/positive-weight
test and its pair is a well-formed `PartisanPair` (shares summing to
100), `weightedCombine` returns that pair exactly; if no component
survives (total weight 0), it returns exactly `{D: 50, R: 50}`; and
absent or zero-weight components contribute nothing at all — filtering
them away leaves the result unchanged, so an absent signal is
zero-weighted rather than replaced by a default pair. -/
theorem weightedCombine_spec (comps : List Component) :
    (∀ c p, comps.filter (·.active) = [c] → c.pair = some p →
      p.D + p.R = 100 → weightedCombine comps = p) ∧
    (comps.filter (·.active) = [] → weightedCombine comps = ⟨50, 50⟩) ∧
    weightedCombine comps = weightedCombine (comps.filter (·.active)) := by
  refine ⟨?_, ?_, ?_⟩
  · intro c p hfilter hpair hsum
    have hact : c.active = true := by
      have : c ∈ comps.filter (·.active) := by rw [hfilter]; exact List.mem_singleton_self c
      exact (List.mem_filter.mp this).2
    have hw : 0 < c.w := by
      simp only [Component.active, Bool.and_eq_true, decide_eq_true_eq] at hact
      exact hact.2
    have hwne : c.w ≠ 0 := ne_of_gt hw
    simp only [weightedCombine, hfilter, List.map_cons, List.map_nil, List.sum_cons,
      List.sum_nil, add_zero, hpair, Option.getD_some]
    rw [if_neg (not_le.mpr hw)]
    rw [mul_div_cancel_left₀ _ hwne, mul_div_cancel_left₀ _ hwne]
    simp only [normalizePairQ, hsum]
    norm_num
  · intro hfilter
    simp [weightedCombine, hfilter]
  · simp only [weightedCombine, List.filter_filter]
    simp

/-- Concrete instantiation of `weightedCombine_spec`: one absent signal,
one zero-weight signal, and one live signal at weight 35. -/
theorem weightedCombine_spec_witness :
    weightedCombine [⟨none, 50⟩, ⟨some ⟨60, 40⟩, 35⟩, ⟨some ⟨70, 30⟩, 0⟩] = ⟨60, 40⟩ ∧
    weightedCombine [⟨none, 50⟩, ⟨some ⟨70, 30⟩, 0⟩] = ⟨50, 50⟩ :=
  ⟨(weightedCombine_spec [⟨none, 50⟩, ⟨some ⟨60, 40⟩, 35⟩, ⟨some ⟨70, 30⟩, 0⟩]).1
      ⟨some ⟨60, 40⟩, 35⟩ ⟨60, 40⟩ (by decide) rfl (by norm_num),
   (weightedCombine_spec [⟨none, 50⟩, ⟨some ⟨70, 30⟩, 0⟩]).2.1 (by decide)⟩

/-! ### Chamber rules -/

/-- The three chambers. -/
inductive Mode where
  | senate
  | governor
  | house
deriving DecidableEq, Repr

/-- One row of the `SEAT_RULES` table. -/
structure SeatRules where
  total : ℕ
  majorityLine : ℕ
  baseR : ℕ
  baseD : ℕ
deriving DecidableEq, Repr

/-- `SEAT_RULES` (run-simulations.js:27-31). -/
def SEAT_RULES : Mode → SeatRules
  | .senate => ⟨100, 51, 31, 34⟩
  | .governor => ⟨50, 26, 8, 6⟩
  | .house => ⟨435, 218, 0, 0⟩

/-- `SENATE_CONTROL_RULE = { demAtLeast: 51, repAtLeast: 50 }`. -/
structure ControlRule where
  demAtLeast : ℕ
  repAtLeast : ℕ
deriving DecidableEq, Repr

def SENATE_CONTROL_RULE : ControlRule := ⟨51, 50⟩

def NUM_SIMS : ℕ := 10000

/-! ### Seat-distribution histograms

Seat samples are JavaScript numbers (`ℚ` here); the source floors them
on entry (they are in fact always integers, coming from `Int16Array`s).
The imperative `counts[idx]++` loops are modelled by one `countP` per
bin, which agrees with the loops because each sample increments exactly
the bin its index selects (and none when the index is out of range). -/

/-- Result record of both histogram builders (`binSize = 1` and no
offset for the full-range strategy). -/
structure Histogram where
  counts : List ℕ
  min : ℤ
  max : ℤ
  isProb : Bool
  total : ℕ
  binSize : ℤ
deriving DecidableEq, Repr

/-- Running minimum of the floored samples, `0` when there are none
(the source's `!isFinite(min)` branch). -/
def listMinD : List ℤ → ℤ
  | [] => 0
  | a :: t => t.foldl min a

/-- Running maximum of the floored samples, `0` when there are none. -/
def listMaxD : List ℤ → ℤ
  | [] => 0
  | a :: t => t.foldl max a

/-- `toBinStart` of `buildBinnedHistogram`:
`Math.floor((v - binOffset) / binSize) * binSize + binOffset`. -/
def toBinStart (binSize binOffset v : ℤ) : ℤ :=
  ⌊((v : ℚ) - binOffset) / binSize⌋ * binSize + binOffset

/-- Source `buildBinnedHistogram` (run-simulations.js:970-997). -/
def buildBinnedHistogram (samples : List ℚ) (binSize0 binOffset : ℤ) : Histogram :=
  let binSize := max 1 binSize0
  let floors := samples.map (fun v => ⌊v⌋)
  let mn := listMinD floors
  let mx := listMaxD floors
  let minB := toBinStart binSize binOffset mn
  let maxB := toBinStart binSize binOffset mx
  let n : ℕ := (max 1 (⌊((maxB : ℚ) - minB) / binSize⌋ + 1)).toNat
  let binIdx : ℚ → ℤ := fun v => ⌊((toBinStart binSize binOffset ⌊v⌋ : ℚ) - minB) / binSize⌋
  let counts := (List.range n).map fun (j : ℕ) =>
    samples.countP fun v => decide (binIdx v = (j : ℤ))
  ⟨counts, minB, minB + (n - 1 : ℤ) * binSize + (binSize - 1), false,
    if samples.length = 0 then 1 else samples.length, binSize⟩

/-- Source `buildRangeHistogram` (run-simulations.js:999-1011): one bin
per integer in `[showMin, showMax]`; samples outside that range are
skipped. -/
def buildRangeHistogram (samples : List ℚ) (showMin showMax : ℤ) : Histogram :=
  let n : ℕ := (showMax - showMin + 1).toNat
  let counts := (List.range n).map fun (j : ℕ) =>
    samples.countP fun v => decide (⌊v⌋ = showMin + (j : ℤ))
  ⟨counts, showMin, showMax, false,
    if samples.length = 0 then 1 else samples.length, 1⟩

/-- Source `buildSeatHistogram` (run-simulations.js:954-968): house is
binned by 12 with offset 2; senate is full-range `[baseD, baseD+upSeats]`;
governor is full-range `[21, 31]`. -/
def buildSeatHistogram (samples : List ℚ) (modeKey : Mode) : Histogram :=
  match modeKey with
  | .house => buildBinnedHistogram samples 12 2
  | .senate =>
      let rules := SEAT_RULES .senate
      let upSeats := rules.total - rules.baseD - rules.baseR
      buildRangeHistogram samples rules.baseD (rules.baseD + upSeats)
  | .governor => buildRangeHistogram samples 21 31

/-! Counting lemmas for the histograms. -/

theorem countP_ico_split (l : List ℚ) (f : ℚ → ℤ) (n : ℕ) :
    (l.countP fun v => decide (0 ≤ f v ∧ f v < (n : ℤ) + 1)) =
      (l.countP fun v => decide (0 ≤ f v ∧ f v < (n : ℤ))) +
        (l.countP fun v => decide (f v = (n : ℤ))) := by
  induction l with
  | nil => rfl
  | cons a l ih =>
      simp only [List.countP_cons, decide_eq_true_eq, ih]
      split_ifs <;> omega

theorem countP_empty_ico (l : List ℚ) (f : ℚ → ℤ) :
    (l.countP fun v => decide (0 ≤ f v ∧ f v < (0 : ℤ))) = 0 := by
  induction l with
  | nil => rfl
  | cons a l ih =>
      simp only [List.countP_cons, ih]
      split_ifs with h
      · simp only [decide_eq_true_eq] at h; omega
      · rfl

theorem sum_counts_eq_countP (l : List ℚ) (f : ℚ → ℤ) (n : ℕ) :
    ((List.range n).map fun (j : ℕ) => l.countP fun v => decide (f v = (j : ℤ))).sum =
      l.countP fun v => decide (0 ≤ f v ∧ f v < (n : ℤ)) := by
  induction n with
  | zero =>
      simp only [List.range_zero, List.map_nil, List.sum_nil, Nat.cast_zero]
      exact (countP_empty_ico l f).symm
  | succ n ih =>
      rw [List.range_succ, List.map_append, List.sum_append]
      simp only [List.map_cons, List.map_nil, List.sum_cons, List.sum_nil, add_zero]
      rw [ih, Nat.cast_succ, countP_ico_split]

/-- The full-range histogram's counts sum to the number of samples whose
floor lies inside the display range. -/
theorem buildRangeHistogram_sum (samples : List ℚ) (showMin showMax : ℤ) :
    (buildRangeHistogram samples showMin showMax).counts.sum =
      samples.countP fun v => decide (showMin ≤ ⌊v⌋ ∧ ⌊v⌋ ≤ showMax) := by
  simp only [buildRangeHistogram]
  have h1 : ∀ j : ℕ, (fun v : ℚ => decide (⌊v⌋ = showMin + (j : ℤ))) =
      fun v : ℚ => decide (⌊v⌋ - showMin = (j : ℤ)) := by
    intro j; funext v; simp only [decide_eq_decide]; omega
  have h2 : ((List.range (showMax - showMin + 1).toNat).map
        fun (j : ℕ) => samples.countP fun v => decide (⌊v⌋ = showMin + (j : ℤ))).sum =
      ((List.range (showMax - showMin + 1).toNat).map
        fun (j : ℕ) => samples.countP fun v => decide (⌊v⌋ - showMin = (j : ℤ))).sum := by
    congr 1
    exact List.map_congr_left fun j _ => by rw [h1 j]
  rw [h2, sum_counts_eq_countP samples (fun v => ⌊v⌋ - showMin) _]
  have h4 : (fun v : ℚ =>
        decide (0 ≤ ⌊v⌋ - showMin ∧ ⌊v⌋ - showMin < (((showMax - showMin + 1).toNat : ℕ) : ℤ))) =
      fun v : ℚ => decide (showMin ≤ ⌊v⌋ ∧ ⌊v⌋ ≤ showMax) := by
    funext v; simp only [decide_eq_decide]; omega
  rw [h4]

theorem foldl_min_le_init (t : List ℤ) (a : ℤ) : t.foldl min a ≤ a := by
  induction t generalizing a with
  | nil => exact le_rfl
  | cons b t ih => exact le_trans (ih (min a b)) (min_le_left a b)

theorem foldl_min_le_mem (t : List ℤ) (a : ℤ) : ∀ v ∈ t, t.foldl min a ≤ v := by
  induction t generalizing a with
  | nil => intro v hv; cases hv
  | cons b t ih =>
      intro v hv
      rcases List.mem_cons.mp hv with h | h
      · subst h; exact le_trans (foldl_min_le_init t (min a v)) (min_le_right a v)
      · exact ih (min a b) v h

theorem le_foldl_max_init (t : List ℤ) (a : ℤ) : a ≤ t.foldl max a := by
  induction t generalizing a with
  | nil => exact le_rfl
  | cons b t ih => exact le_trans (le_max_left a b) (ih (max a b))

theorem le_foldl_max_mem (t : List ℤ) (a : ℤ) : ∀ v ∈ t, v ≤ t.foldl max a := by
  induction t generalizing a with
  | nil => intro v hv; cases hv
  | cons b t ih =>
      intro v hv
      rcases List.mem_cons.mp hv with h | h
      · subst h; exact le_trans (le_max_right a v) (le_foldl_max_init t (max a v))
      · exact ih (max a b) v h

theorem listMinD_le (l : List ℤ) : ∀ v ∈ l, listMinD l ≤ v := by
  cases l with
  | nil => intro v hv; cases hv
  | cons a t =>
      intro v hv
      rcases List.mem_cons.mp hv with h | h
      · subst h; exact foldl_min_le_init t v
      · exact foldl_min_le_mem t a v h

theorem le_listMaxD (l : List ℤ) : ∀ v ∈ l, v ≤ listMaxD l := by
  cases l with
  | nil => intro v hv; cases hv
  | cons a t =>
      intro v hv
      rcases List.mem_cons.mp hv with h | h
      · subst h; exact le_foldl_max_init t v
      · exact le_foldl_max_mem t a v h

theorem floorDivQ_mono (s o : ℤ) (hs : 1 ≤ s) {a b : ℤ} (hab : a ≤ b) :
    ⌊((a : ℚ) - o) / s⌋ ≤ ⌊((b : ℚ) - o) / s⌋ := by
  apply Int.floor_mono
  have hs0 : (0 : ℚ) < s := by exact_mod_cast lt_of_lt_of_le one_pos hs
  have hab' : ((a : ℚ) - o) ≤ ((b : ℚ) - o) := by
    have : (a : ℚ) ≤ b := by exact_mod_cast hab
    linarith
  exact div_le_div_of_nonneg_right hab' hs0.le

theorem floor_binDiff (s o : ℤ) (hs : 1 ≤ s) (a b : ℤ) :
    ⌊((toBinStart s o a : ℚ) - (toBinStart s o b : ℚ)) / s⌋ =
      ⌊((a : ℚ) - o) / s⌋ - ⌊((b : ℚ) - o) / s⌋ := by
  have hs0 : (s : ℚ) ≠ 0 := by
    have : (0 : ℚ) < s := by exact_mod_cast lt_of_lt_of_le one_pos hs
    exact ne_of_gt this
  have h : ((toBinStart s o a : ℚ) - (toBinStart s o b : ℚ)) =
      ((⌊((a : ℚ) - o) / s⌋ - ⌊((b : ℚ) - o) / s⌋ : ℤ) : ℚ) * s := by
    simp only [toBinStart]
    push_cast
    ring
  rw [h, mul_div_cancel_right₀ _ hs0, Int.floor_intCast]

/-- The binned histogram counts every sample: its counts always sum to
the number of samples. -/
theorem buildBinnedHistogram_sum (samples : List ℚ) (binSize0 binOffset : ℤ) :
    (buildBinnedHistogram samples binSize0 binOffset).counts.sum = samples.length := by
  simp only [buildBinnedHistogram]
  set s := max 1 binSize0 with hs_def
  have hs : (1 : ℤ) ≤ s := le_max_left _ _
  set floors := samples.map (fun v => ⌊v⌋) with hfloors
  set mn := listMinD floors with hmn
  set mx := listMaxD floors with hmx
  rw [sum_counts_eq_countP samples
    (fun v => ⌊((toBinStart s binOffset ⌊v⌋ : ℚ) - (toBinStart s binOffset mn : ℚ)) / s⌋) _]
  rw [List.countP_eq_length]
  intro v hv
  have hmem : ⌊v⌋ ∈ floors := by rw [hfloors]; exact List.mem_map_of_mem _ hv
  have h1 : mn ≤ ⌊v⌋ := listMinD_le floors _ hmem
  have h2 : ⌊v⌋ ≤ mx := le_listMaxD floors _ hmem
  have hk := floor_binDiff s binOffset hs ⌊v⌋ mn
  have hK := floor_binDiff s binOffset hs mx mn
  have hk0 : 0 ≤ ⌊((⌊v⌋ : ℚ) - binOffset) / s⌋ - ⌊((mn : ℚ) - binOffset) / s⌋ :=
    sub_nonneg.mpr (floorDivQ_mono s binOffset hs h1)
  have hkK : ⌊((⌊v⌋ : ℚ) - binOffset) / s⌋ - ⌊((mn : ℚ) - binOffset) / s⌋ ≤
      ⌊((mx : ℚ) - binOffset) / s⌋ - ⌊((mn : ℚ) - binOffset) / s⌋ :=
    sub_le_sub_right (floorDivQ_mono s binOffset hs h2) _
  rw [decide_eq_true_eq, hk, hK]
  constructor
  · exact hk0
  · omega

/-! ### Probability layer

The win-probability model uses the transcendental `exp`; it is modelled
over `ℝ`, faithfully to the source, and is therefore noncomputable. -/

noncomputable section ProbabilityLayer

/-- Source `clamp`: `Math.max(a, Math.min(b, x))`. -/
def clampR (x a b : ℝ) : ℝ := max a (min b x)

/-- Coefficient `a1` of the Abramowitz-Stegun `erf` approximation
(run-simulations.js:51-52). -/
def A1 : ℝ := 0.254829592

def A2 : ℝ := -0.284496736

def A3 : ℝ := 1.421413741

def A4 : ℝ := -1.453152027

def A5 : ℝ := 1.061405429

/-- The constant `p = 0.3275911` of the approximation. -/
def P0 : ℝ := 0.3275911

/-- The Horner-evaluated quintic
`(((((a5*t + a4)*t) + a3)*t + a2)*t + a1)*t` of the source `erf`. -/
def erfPoly (t : ℝ) : ℝ := ((((A5 * t + A4) * t + A3) * t + A2) * t + A1) * t

/-- Source `erf` (run-simulations.js:48-56): odd-symmetric
Abramowitz-Stegun approximation `sign * (1 - poly(t) * exp(-x^2))` with
`t = 1 / (1 + p*|x|)`. -/
def erf (x : ℝ) : ℝ :=
  (if x < 0 then -1 else 1) *
    (1 - erfPoly (1 / (1 + P0 * |x|)) * Real.exp (-(|x| * |x|)))

/-- Source `normalCDF`: `0.5 * (1 + erf (x / Math.SQRT2))`. -/
def normalCDF (x : ℝ) : ℝ := 0.5 * (1 + erf (x / Real.sqrt 2))

/-- `PROB_ERROR_SD_PTS = 7`. -/
def PROB_ERROR_SD_PTS : ℝ := 7

/-- Source `winProbFromMargin`: `pR = clamp(normalCDF(m / sd), 0, 1)`,
`pD = 1 - pR`, returned as the pair `(pD, pR)`. -/
def winProbFromMargin (m : ℝ) : ℝ × ℝ :=
  let z := m / PROB_ERROR_SD_PTS
  let pR := clampR (normalCDF z) 0 1
  (1 - pR, pR)

/-- Round-to-nearest-float32 (round half up) on positive reals: the
model of storing a computed probability into the source's
`Float32Array` table.  Non-positive values are returned unchanged (the
table only ever stores values in `(0, 1]`, and the stored values are
irrational so exact rounding ties cannot occur). -/
def f32round (x : ℝ) : ℝ :=
  if 0 < x then
    ((round (x / 2 ^ (Int.log 2 x - 23)) : ℤ) : ℝ) * 2 ^ (Int.log 2 x - 23)
  else x

def WINP_MIN : ℝ := -40

def WINP_MAX : ℝ := 40

def WINP_STEP : ℝ := 0.1

/-- `WINP_N = Math.round((WINP_MAX - WINP_MIN) / WINP_STEP) + 1 = 801`. -/
def WINP_N : ℕ := 801

/-- Entry `i` of `WINP_PD_TABLE`: the float32-rounded `pD` of
`winProbFromMargin(WINP_MIN + i * WINP_STEP)`. -/
def winpTable (i : ℕ) : ℝ :=
  f32round (winProbFromMargin (WINP_MIN + i * WINP_STEP)).1

/-- Source `winProbD_fast` on a finite margin (run-simulations.js:74-79):
clamp to the table range, nearest-bucket index, table lookup; the
`?? 0.5` fallback fires when the index is outside `[0, WINP_N)`. -/
def winProbD_fastR (m : ℝ) : ℝ :=
  let mm := clampR m WINP_MIN WINP_MAX
  let idx := round ((mm - WINP_MIN) / WINP_STEP)
  if 0 ≤ idx ∧ idx < (WINP_N : ℤ) then winpTable idx.toNat else 0.5

/-- A JavaScript number holding a real margin, admitting the non-finite
specials; `winProbD_fast` returns exactly 0.5 on those
(`if (!isFinite(m)) return 0.5`). -/
inductive JSRealNum where
  | nan
  | posInf
  | negInf
  | fin (x : ℝ)

/-- Source `winProbD_fast` on arbitrary JavaScript numbers. -/
def winProbD_fast : JSRealNum → ℝ
  | .fin m => winProbD_fastR m
  | _ => 0.5

/-- JavaScript `isFinite` on real-margin numbers. -/
def JSRealNum.isFinite : JSRealNum → Bool
  | .fin _ => true
  | _ => false

/-! ### Monte-Carlo trials

Randomness is passed explicitly: each trial consumes one uniform draw
`u0` for the shared swing (`swing = (u0*2 - 1) * swingRange`) and then
one uniform draw per seat, exactly in source order. -/

/-- One seat's Bernoulli outcome inside a trial:
`Math.random() < winProbD_fast(margins[i] + swing)`. -/
def seatWon (margin : ℚ) (swing u : ℝ) : Prop :=
  u < winProbD_fastR ((margin : ℝ) + swing)

def HOUSE_MC_SWING_RANGE_PTS : ℝ := 7

def SENATE_MC_SWING_RANGE_PTS : ℝ := 7

open Classical in
/-- Per-trial Democratic seat total of the current-day simulators
(runSenateSimulation / runGovernorSimulation inner loop): start from
`dSeats = rules.baseD` and increment for every winning seat. -/
def simTrialDSeats (baseD : ℕ) (swingRange : ℝ) (margins : List ℚ)
    (u0 : ℝ) (draws : List ℝ) : ℕ :=
  let swing := (u0 * 2 - 1) * swingRange
  (List.zip margins draws).foldl
    (fun dSeats md => if seatWon md.1 swing md.2 then dSeats + 1 else dSeats) baseD

open Classical in
/-- Per-trial Democratic seat total of the time-series engine
(runOddsOverTimeState inner loop): count `dWins` over the seats, then
`dSeats = baseD + dWins`. -/
def tsTrialDSeats (baseD : ℕ) (swingRange : ℝ) (margins : List ℚ)
    (u0 : ℝ) (draws : List ℝ) : ℕ :=
  let swing := (u0 * 2 - 1) * swingRange
  let dWins := (List.zip margins draws).countP fun md => decide (seatWon md.1 swing md.2)
  baseD + dWins

/-- The per-trial seat samples of a current-day chamber run: one
`(u0, draws)` bundle per trial. -/
def runSeatSamples (baseD : ℕ) (swingRange : ℝ) (margins : List ℚ)
    (rand : List (ℝ × List ℝ)) : List ℕ :=
  rand.map fun t => simTrialDSeats baseD swingRange margins t.1 t.2

/-- Control test applied per trial by the current-day simulators:
senate compares against `SENATE_CONTROL_RULE.demAtLeast`, governor and
house against `rules.majorityLine`. -/
def simIsDemControl (m : Mode) (dSeats : ℕ) : Bool :=
  match m with
  | .senate => decide (SENATE_CONTROL_RULE.demAtLeast ≤ dSeats)
  | _ => decide ((SEAT_RULES m).majorityLine ≤ dSeats)

/-- `controlLine` of runOddsOverTimeState:
`modeKey === "senate" ? SENATE_CONTROL_RULE.demAtLeast : rules.majorityLine`. -/
def tsControlLine (m : Mode) : ℕ :=
  match m with
  | .senate => SENATE_CONTROL_RULE.demAtLeast
  | _ => (SEAT_RULES m).majorityLine

/-- `tieIsDem = (modeKey === "governor")` — hard-coded in
runOddsOverTimeState, not a rules-table field. -/
def tsTieIsDem (m : Mode) : Bool := decide (m = .governor)

/-- `tieSeat = rules.majorityLine - 1`. -/
def tsTieSeat (m : Mode) : ℕ := (SEAT_RULES m).majorityLine - 1

/-- Control test applied per trial by the time-series engine:
`(dSeats >= controlLine) || (tieIsDem && dSeats === tieSeat)`. -/
def tsIsDemControl (m : Mode) (dSeats : ℕ) : Bool :=
  decide (tsControlLine m ≤ dSeats) || (tsTieIsDem m && decide (dSeats = tsTieSeat m))

end ProbabilityLayer

/-! ### Analysis of the erf approximation

`erfPoly` and its derivative are globally nonneg-definite quadratic
combinations, which gives monotonicity of the approximated `erf` via the
mean value theorem. -/

noncomputable section ErfAnalysis

/-- Derivative of `erfPoly`:
`a1 + 2 a2 t + 3 a3 t² + 4 a4 t³ + 5 a5 t⁴`. -/
def erfPolyDeriv (t : ℝ) : ℝ :=
  A1 + 2 * A2 * t + 3 * A3 * t ^ 2 + 4 * A4 * t ^ 3 + 5 * A5 * t ^ 4

theorem erfPolyDeriv_nonneg (t : ℝ) : 0 ≤ erfPolyDeriv t := by
  have h1 := sq_nonneg (t - 8890523 / 15625000)
  have h2 := mul_nonneg (sq_nonneg t) (sq_nonneg (t - 2906304054 / 5307027145))
  have h3 := sq_nonneg t
  simp only [erfPolyDeriv, A1, A2, A3, A4, A5]
  nlinarith [h1, h2, h3]

theorem erfPoly_inner_nonneg (t : ℝ) :
    0 ≤ (((A5 * t + A4) * t + A3) * t + A2) * t + A1 := by
  have h1 := sq_nonneg (t - 8890523 / 18750000)
  have h2 := mul_nonneg (sq_nonneg t) (sq_nonneg (t - 1453152027 / 2122810858))
  have h3 := sq_nonneg t
  simp only [A1, A2, A3, A4, A5]
  nlinarith [h1, h2, h3]

theorem erfPoly_nonneg {t : ℝ} (ht : 0 ≤ t) : 0 ≤ erfPoly t :=
  mul_nonneg (erfPoly_inner_nonneg t) ht

theorem hasDerivAt_erfPoly (t : ℝ) : HasDerivAt erfPoly (erfPolyDeriv t) t := by
  have h : HasDerivAt (fun t : ℝ => ((((A5 * t + A4) * t + A3) * t + A2) * t + A1) * t)
      ((((((A5 * 1) * t + (A5 * t + A4) * 1) * t + ((A5 * t + A4) * t + A3) * 1) * t +
        (((A5 * t + A4) * t + A3) * t + A2) * 1)) * t +
        (((((A5 * t + A4) * t + A3) * t + A2) * t + A1)) * 1) t := by
    exact (((((((hasDerivAt_id t).const_mul A5).add_const A4).mul (hasDerivAt_id t)).add_const
      A3).mul (hasDerivAt_id t) |>.add_const A2).mul (hasDerivAt_id t) |>.add_const A1).mul
      (hasDerivAt_id t)
  have he : erfPoly = fun t : ℝ => ((((A5 * t + A4) * t + A3) * t + A2) * t + A1) * t := rfl
  rw [he]
  convert h using 1
  simp only [erfPolyDeriv]
  ring

theorem erfPoly_monotone : Monotone erfPoly := by
  apply monotone_of_deriv_nonneg
  · exact fun t => (hasDerivAt_erfPoly t).differentiableAt
  · intro t
    rw [(hasDerivAt_erfPoly t).deriv]
    exact erfPolyDeriv_nonneg t

theorem erfPoly_le_one {t : ℝ} (ht : t ≤ 1) : erfPoly t ≤ 1 := by
  have h1 : erfPoly t ≤ erfPoly 1 := erfPoly_monotone ht
  have h2 : erfPoly 1 = 999999999 / 1000000000 := by
    simp only [erfPoly, A1, A2, A3, A4, A5]
    norm_num
  rw [h2] at h1
  linarith

theorem P0_pos : (0 : ℝ) < P0 := by norm_num [P0]

/-- The positive-side branch of the source `erf`:
`1 - poly(1/(1+p*x)) * exp(-x²)`. -/
def gAux (x : ℝ) : ℝ := 1 - erfPoly (1 / (1 + P0 * x)) * Real.exp (-(x * x))

theorem erf_eq_gAux {x : ℝ} (hx : 0 ≤ x) : erf x = gAux x := by
  simp [erf, gAux, not_lt.mpr hx, abs_of_nonneg hx]

theorem erf_eq_neg_gAux {x : ℝ} (hx : x < 0) : erf x = -gAux (-x) := by
  simp only [erf, gAux, if_pos hx, abs_of_neg hx]
  ring_nf

theorem one_add_P0_pos {x : ℝ} (hx : 0 ≤ x) : 0 < 1 + P0 * x := by
  have := mul_nonneg P0_pos.le hx
  linarith

theorem hasDerivAt_gAux {x : ℝ} (hx : 0 ≤ x) :
    HasDerivAt gAux
      (Real.exp (-(x * x)) *
        (P0 * (1 / (1 + P0 * x)) ^ 2 * erfPolyDeriv (1 / (1 + P0 * x)) +
          2 * x * erfPoly (1 / (1 + P0 * x)))) x := by
  have hden : 0 < 1 + P0 * x := one_add_P0_pos hx
  have h0 : HasDerivAt (fun y : ℝ => 1 + P0 * y) P0 x := by
    simpa using ((hasDerivAt_id x).const_mul P0).const_add 1
  have hinv : HasDerivAt (fun y : ℝ => (1 + P0 * y)⁻¹) (-P0 / (1 + P0 * x) ^ 2) x := by
    simpa using h0.inv hden.ne'
  have hcomp : HasDerivAt (fun y : ℝ => erfPoly ((1 + P0 * y)⁻¹))
      (erfPolyDeriv ((1 + P0 * x)⁻¹) * (-P0 / (1 + P0 * x) ^ 2)) x :=
    (hasDerivAt_erfPoly _).comp x hinv
  have hxx : HasDerivAt (fun y : ℝ => -(y * y)) (-(2 * x)) x := by
    have := ((hasDerivAt_id x).mul (hasDerivAt_id x)).neg
    simpa [two_mul] using this
  have hexp : HasDerivAt (fun y : ℝ => Real.exp (-(y * y)))
      (Real.exp (-(x * x)) * -(2 * x)) x := hxx.exp
  have hmul := (hcomp.mul hexp).const_sub 1
  have hfun : gAux = fun y : ℝ =>
      1 - erfPoly ((1 + P0 * y)⁻¹) * Real.exp (-(y * y)) := by
    funext y
    simp [gAux, one_div]
  rw [hfun]
  convert hmul using 1
  have hne : (1 + P0 * x) ≠ 0 := hden.ne'
  field_simp
  ring

theorem gAux_monotoneOn : MonotoneOn gAux (Set.Ici 0) := by
  apply monotoneOn_of_deriv_nonneg (convex_Ici 0)
  · intro x hx
    exact (hasDerivAt_gAux hx).continuousAt.continuousWithinAt
  · intro x hx
    rw [interior_Ici] at hx
    exact (hasDerivAt_gAux (le_of_lt hx)).differentiableAt.differentiableWithinAt
  · intro x hx
    rw [interior_Ici] at hx
    have hx0 : (0 : ℝ) < x := hx
    rw [(hasDerivAt_gAux hx0.le).deriv]
    have hden : 0 < 1 + P0 * x := one_add_P0_pos hx0.le
    have ht : 0 ≤ 1 / (1 + P0 * x) := by positivity
    apply mul_nonneg (Real.exp_pos _).le
    apply add_nonneg
    · exact mul_nonneg (mul_nonneg P0_pos.le (sq_nonneg _)) (erfPolyDeriv_nonneg _)
    · exact mul_nonneg (by linarith) (erfPoly_nonneg ht)

theorem gAux_nonneg {x : ℝ} (hx : 0 ≤ x) : 0 ≤ gAux x := by
  have hden : 0 < 1 + P0 * x := one_add_P0_pos hx
  have ht0 : 0 ≤ 1 / (1 + P0 * x) := by positivity
  have ht1 : 1 / (1 + P0 * x) ≤ 1 := by
    rw [div_le_one hden]
    have := mul_nonneg P0_pos.le hx
    linarith
  have hq0 : 0 ≤ erfPoly (1 / (1 + P0 * x)) := erfPoly_nonneg ht0
  have hq1 : erfPoly (1 / (1 + P0 * x)) ≤ 1 := erfPoly_le_one ht1
  have he0 : 0 ≤ Real.exp (-(x * x)) := (Real.exp_pos _).le
  have he1 : Real.exp (-(x * x)) ≤ 1 := by
    rw [Real.exp_le_one_iff]
    nlinarith [mul_self_nonneg x]
  have : erfPoly (1 / (1 + P0 * x)) * Real.exp (-(x * x)) ≤ 1 := by
    calc erfPoly (1 / (1 + P0 * x)) * Real.exp (-(x * x)) ≤ 1 * 1 :=
          mul_le_mul hq1 he1 he0 zero_le_one
    _ = 1 := mul_one 1
  simp only [gAux]
  linarith

theorem erf_monotone : Monotone erf := by
  intro x y hxy
  rcases le_or_lt 0 x with hx | hx
  · have hy : 0 ≤ y := hx.trans hxy
    rw [erf_eq_gAux hx, erf_eq_gAux hy]
    exact gAux_monotoneOn hx hy hxy
  · rcases le_or_lt 0 y with hy | hy
    · rw [erf_eq_neg_gAux hx, erf_eq_gAux hy]
      have h1 : 0 ≤ gAux (-x) := gAux_nonneg (by linarith)
      have h2 : 0 ≤ gAux y := gAux_nonneg hy
      linarith
    · rw [erf_eq_neg_gAux hx, erf_eq_neg_gAux hy]
      have : gAux (-y) ≤ gAux (-x) :=
        gAux_monotoneOn (by simp; linarith) (by simp; linarith) (by linarith)
      linarith

theorem normalCDF_monotone : Monotone normalCDF := by
  intro x y hxy
  simp only [normalCDF]
  have hs : 0 < Real.sqrt 2 := Real.sqrt_pos.mpr (by norm_num)
  have : erf (x / Real.sqrt 2) ≤ erf (y / Real.sqrt 2) :=
    erf_monotone (div_le_div_of_nonneg_right hxy hs.le)
  linarith

theorem clampR_mono_left {x y a b : ℝ} (h : x ≤ y) : clampR x a b ≤ clampR y a b :=
  max_le_max le_rfl (min_le_min le_rfl h)

/-- `pD = (winProbFromMargin m).1` is antitone in the margin. -/
theorem winProb_pD_antitone {m1 m2 : ℝ} (h : m1 ≤ m2) :
    (winProbFromMargin m2).1 ≤ (winProbFromMargin m1).1 := by
  show 1 - clampR (normalCDF (m2 / PROB_ERROR_SD_PTS)) 0 1 ≤
    1 - clampR (normalCDF (m1 / PROB_ERROR_SD_PTS)) 0 1
  have hz : m1 / PROB_ERROR_SD_PTS ≤ m2 / PROB_ERROR_SD_PTS := by
    apply div_le_div_of_nonneg_right h
    norm_num [PROB_ERROR_SD_PTS]
  have := clampR_mono_left (a := 0) (b := 1) (normalCDF_monotone hz)
  linarith

theorem clampR01_mem (y : ℝ) : 0 ≤ clampR y 0 1 ∧ clampR y 0 1 ≤ 1 := by
  constructor
  · exact le_max_left 0 _
  · apply max_le (by norm_num)
    exact min_le_left 1 y

/-- `pD` always lies in `[0, 1]`. -/
theorem winProb_pD_mem (m : ℝ) :
    0 ≤ (winProbFromMargin m).1 ∧ (winProbFromMargin m).1 ≤ 1 := by
  have h : (winProbFromMargin m).1 =
      1 - clampR (normalCDF (m / PROB_ERROR_SD_PTS)) 0 1 := rfl
  rw [h]
  have := clampR01_mem (normalCDF (m / PROB_ERROR_SD_PTS))
  constructor
  · linarith [this.2]
  · linarith [this.1]

end ErfAnalysis

/-! ### Float32 rounding lemmas -/

section F32

theorem round_mono_le {x y : ℝ} (h : x ≤ y) : round x ≤ round y := by
  rw [round_eq, round_eq]
  exact Int.floor_mono (by linarith)

theorem round_of_intCast (n : ℤ) : round ((n : ℝ)) = n := round_intCast n

theorem intCast_two_pow (k : ℕ) : ((2 ^ k : ℤ) : ℝ) = (2 : ℝ) ^ (k : ℤ) := by
  push_cast
  exact (zpow_natCast 2 k).symm

theorem two_pow_shift24 (e : ℤ) : ((2 ^ 24 : ℤ) : ℝ) * 2 ^ (e - 23) = 2 ^ (e + 1) := by
  rw [intCast_two_pow, ← zpow_add₀ (by norm_num : (2 : ℝ) ≠ 0)]
  congr 1
  omega

theorem two_pow_shift23 (e : ℤ) : ((2 ^ 23 : ℤ) : ℝ) * 2 ^ (e - 23) = 2 ^ e := by
  rw [intCast_two_pow, ← zpow_add₀ (by norm_num : (2 : ℝ) ≠ 0)]
  congr 1
  omega

theorem f32round_zero : f32round 0 = 0 := by simp [f32round]

theorem f32round_of_nonpos {x : ℝ} (h : x ≤ 0) : f32round x = x := by
  rw [f32round, if_neg (not_lt.mpr h)]

theorem f32round_nonneg {x : ℝ} (h : 0 ≤ x) : 0 ≤ f32round x := by
  rcases lt_or_eq_of_le h with h' | h'
  · rw [f32round, if_pos h']
    apply mul_nonneg _ (zpow_pos (by norm_num : (0 : ℝ) < 2) _).le
    have hz : (0 : ℝ) ≤ x / 2 ^ (Int.log 2 x - 23) := by positivity
    have hr := round_mono_le hz
    rw [round_zero] at hr
    exact_mod_cast hr
  · rw [← h', f32round_zero]

theorem f32round_le_zpow {x : ℝ} (h : 0 < x) :
    f32round x ≤ 2 ^ (Int.log 2 x + 1) := by
  have hp : (0 : ℝ) < (2 : ℝ) ^ (Int.log 2 x - 23) := zpow_pos (by norm_num) _
  have hup : x < 2 ^ (Int.log 2 x + 1) := Int.lt_zpow_succ_log_self (by norm_num) x
  have hz : x / 2 ^ (Int.log 2 x - 23) < ((2 ^ 24 : ℤ) : ℝ) := by
    rw [div_lt_iff₀ hp]
    rw [two_pow_shift24]
    exact hup
  have hr : round (x / 2 ^ (Int.log 2 x - 23)) ≤ 2 ^ 24 := by
    have := round_mono_le hz.le
    rwa [round_of_intCast] at this
  rw [f32round, if_pos h, ← two_pow_shift24]
  apply mul_le_mul_of_nonneg_right _ hp.le
  exact_mod_cast hr

theorem zpow_le_f32round {x : ℝ} (h : 0 < x) :
    (2 : ℝ) ^ (Int.log 2 x) ≤ f32round x := by
  have hp : (0 : ℝ) < (2 : ℝ) ^ (Int.log 2 x - 23) := zpow_pos (by norm_num) _
  have hlo : (2 : ℝ) ^ (Int.log 2 x) ≤ x := Int.zpow_log_le_self (by norm_num) h
  have hz : ((2 ^ 23 : ℤ) : ℝ) ≤ x / 2 ^ (Int.log 2 x - 23) := by
    rw [le_div_iff₀ hp]
    rw [two_pow_shift23]
    exact hlo
  have hr : (2 ^ 23 : ℤ) ≤ round (x / 2 ^ (Int.log 2 x - 23)) := by
    have := round_mono_le hz
    rwa [round_of_intCast] at this
  rw [f32round, if_pos h, ← two_pow_shift23]
  apply mul_le_mul_of_nonneg_right _ hp.le
  exact_mod_cast hr

theorem f32round_mono : Monotone f32round := by
  intro x y hxy
  rcases lt_or_le 0 x with hx | hx
  · have hy : 0 < y := lt_of_lt_of_le hx hxy
    have he : Int.log 2 x ≤ Int.log 2 y := Int.log_mono_right hx hxy
    rcases eq_or_lt_of_le he with heq | hlt
    · rw [f32round, if_pos hx, f32round, if_pos hy, ← heq]
      have hp : (0 : ℝ) < (2 : ℝ) ^ (Int.log 2 x - 23) := zpow_pos (by norm_num) _
      apply mul_le_mul_of_nonneg_right _ hp.le
      have : round (x / 2 ^ (Int.log 2 x - 23)) ≤ round (y / 2 ^ (Int.log 2 x - 23)) :=
        round_mono_le (div_le_div_of_nonneg_right hxy hp.le)
      exact_mod_cast this
    · calc f32round x ≤ 2 ^ (Int.log 2 x + 1) := f32round_le_zpow hx
      _ ≤ 2 ^ (Int.log 2 y) := zpow_le_zpow_right₀ (by norm_num) (by omega)
      _ ≤ f32round y := zpow_le_f32round hy
  · rcases lt_or_le 0 y with hy | hy
    · calc f32round x = x := f32round_of_nonpos hx
      _ ≤ 0 := hx
      _ ≤ f32round y := f32round_nonneg hy.le
    · rw [f32round_of_nonpos hx, f32round_of_nonpos hy]
      exact hxy

theorem int_log2_eq {q : ℝ} {e : ℤ} (h0 : 0 < q) (h1 : (2 : ℝ) ^ e ≤ q)
    (h2 : q < 2 ^ (e + 1)) : Int.log 2 q = e := by
  have hle : e ≤ Int.log 2 q := (Int.zpow_le_iff_le_log (by norm_num) h0).mp h1
  have hge : Int.log 2 q ≤ e := by
    by_contra hc
    push_neg at hc
    have h3 : (2 : ℝ) ^ (e + 1) ≤ 2 ^ (Int.log 2 q) :=
      zpow_le_zpow_right₀ (by norm_num) (by omega)
    have h4 : (2 : ℝ) ^ (Int.log 2 q) ≤ q := Int.zpow_log_le_self (by norm_num) h0
    linarith
  omega

theorem f32round_eval {q : ℝ} {e n : ℤ} (h0 : 0 < q) (h1 : (2 : ℝ) ^ e ≤ q)
    (h2 : q < 2 ^ (e + 1)) (hr : round (q / 2 ^ (e - 23)) = n) :
    f32round q = n * 2 ^ (e - 23) := by
  rw [f32round, if_pos h0, int_log2_eq h0 h1 h2, hr]

theorem f32round_one : f32round 1 = 1 := by
  have harg : (1 : ℝ) / 2 ^ ((0 : ℤ) - 23) = ((2 ^ 23 : ℤ) : ℝ) := by
    rw [one_div, ← zpow_neg, intCast_two_pow]
    congr 1
  have h : f32round 1 = ((2 ^ 23 : ℤ) : ℝ) * 2 ^ ((0 : ℤ) - 23) := by
    apply f32round_eval one_pos (by norm_num) (by norm_num)
    rw [harg, round_of_intCast]
  rw [h, two_pow_shift23]
  norm_num

end F32

/-! ### Lookup-table lemmas -/

section TableLemmas

theorem erfPoly_one : erfPoly 1 = 999999999 / 1000000000 := by
  simp only [erfPoly, A1, A2, A3, A4, A5]
  norm_num

theorem clampR_of_mem {y : ℝ} (h0 : 0 ≤ y) (h1 : y ≤ 1) : clampR y 0 1 = y := by
  rw [clampR, min_eq_right h1, max_eq_right h0]

theorem winpTable_mem (i : ℕ) : 0 ≤ winpTable i ∧ winpTable i ≤ 1 := by
  have h := winProb_pD_mem (WINP_MIN + i * WINP_STEP)
  constructor
  · exact f32round_nonneg h.1
  · calc winpTable i ≤ f32round 1 := f32round_mono h.2
    _ = 1 := f32round_one

theorem winpTable_antitone {i j : ℕ} (h : i ≤ j) : winpTable j ≤ winpTable i := by
  apply f32round_mono
  apply winProb_pD_antitone
  have : (i : ℝ) ≤ (j : ℝ) := by exact_mod_cast h
  have hstep : (0 : ℝ) < WINP_STEP := by norm_num [WINP_STEP]
  nlinarith

theorem clampR_table_ge (m : ℝ) : WINP_MIN ≤ clampR m WINP_MIN WINP_MAX :=
  le_max_left _ _

theorem clampR_table_le (m : ℝ) : clampR m WINP_MIN WINP_MAX ≤ WINP_MAX := by
  apply max_le
  · norm_num [WINP_MIN, WINP_MAX]
  · exact min_le_left _ _

theorem round_800 : round ((800 : ℝ)) = 800 := by
  rw [show (800 : ℝ) = ((800 : ℤ) : ℝ) by norm_num, round_of_intCast]

theorem winIdx_range (m : ℝ) :
    0 ≤ round ((clampR m WINP_MIN WINP_MAX - WINP_MIN) / WINP_STEP) ∧
      round ((clampR m WINP_MIN WINP_MAX - WINP_MIN) / WINP_STEP) ≤ 800 := by
  have hge := clampR_table_ge m
  have hle := clampR_table_le m
  have hstep : (0 : ℝ) < WINP_STEP := by norm_num [WINP_STEP]
  constructor
  · have harg : (0 : ℝ) ≤ (clampR m WINP_MIN WINP_MAX - WINP_MIN) / WINP_STEP := by
      apply div_nonneg _ hstep.le
      linarith
    have := round_mono_le harg
    rwa [round_zero] at this
  · have harg : (clampR m WINP_MIN WINP_MAX - WINP_MIN) / WINP_STEP ≤ 800 := by
      rw [div_le_iff₀ hstep]
      simp only [WINP_MIN, WINP_MAX, WINP_STEP] at hge hle ⊢
      linarith
    have := round_mono_le harg
    rwa [round_800] at this

theorem winProbD_fastR_eq_table (m : ℝ) :
    winProbD_fastR m =
      winpTable (round ((clampR m WINP_MIN WINP_MAX - WINP_MIN) / WINP_STEP)).toNat := by
  have h := winIdx_range m
  rw [winProbD_fastR, if_pos]
  refine ⟨h.1, ?_⟩
  have : (WINP_N : ℤ) = 801 := by norm_num [WINP_N]
  omega

/-- The table-backed fast lookup is monotone non-increasing in the
margin. -/
theorem winProbD_fastR_antitone {m1 m2 : ℝ} (h : m1 ≤ m2) :
    winProbD_fastR m2 ≤ winProbD_fastR m1 := by
  rw [winProbD_fastR_eq_table m1, winProbD_fastR_eq_table m2]
  apply winpTable_antitone
  apply Int.toNat_le_toNat
  apply round_mono_le
  apply div_le_div_of_nonneg_right _ (by norm_num [WINP_STEP] : (0:ℝ) < WINP_STEP).le
  have := clampR_mono_left (a := WINP_MIN) (b := WINP_MAX) h
  linarith

theorem winProbD_fastR_mem (m : ℝ) : 0 ≤ winProbD_fastR m ∧ winProbD_fastR m ≤ 1 := by
  rw [winProbD_fastR_eq_table m]
  exact winpTable_mem _

theorem erf_zero : erf 0 = 1 / 1000000000 := by
  have h : erf 0 = 1 - erfPoly 1 * Real.exp 0 := by
    simp [erf, abs_zero, P0]
  rw [h, Real.exp_zero, erfPoly_one]
  norm_num

theorem normalCDF_zero : normalCDF 0 = 1000000001 / 2000000000 := by
  rw [normalCDF, zero_div, erf_zero]
  norm_num

theorem winProb_pD_zero : (winProbFromMargin 0).1 = 999999999 / 2000000000 := by
  have h : (winProbFromMargin 0).1 =
      1 - clampR (normalCDF (0 / PROB_ERROR_SD_PTS)) 0 1 := rfl
  rw [h, zero_div, normalCDF_zero, clampR_of_mem (by norm_num) (by norm_num)]
  norm_num

theorem f32round_half_residue :
    f32round (999999999 / 2000000000) = 1 / 2 := by
  have harg : (999999999 / 2000000000 : ℝ) / 2 ^ ((-2 : ℤ) - 23) =
      999999999 * 16777216 / 1000000000 := by
    rw [show ((-2 : ℤ) - 23) = -(25 : ℤ) by norm_num, zpow_neg]
    rw [show ((25 : ℤ) = ((25 : ℕ) : ℤ)) by norm_num, zpow_natCast]
    norm_num
  have hround : round ((999999999 / 2000000000 : ℝ) / 2 ^ ((-2 : ℤ) - 23)) = 2 ^ 24 := by
    rw [harg, round_eq, Int.floor_eq_iff]
    constructor
    · push_cast
      norm_num
    · push_cast
      norm_num
  have h := f32round_eval (q := 999999999 / 2000000000) (e := -2) (n := 2 ^ 24)
    (by norm_num) (by norm_num) (by norm_num) hround
  rw [h, two_pow_shift24]
  norm_num

theorem winProbD_fastR_zero : winProbD_fastR 0 = 1 / 2 := by
  have hclamp : clampR 0 WINP_MIN WINP_MAX = 0 := by
    rw [clampR, WINP_MIN, WINP_MAX]
    norm_num
  have hidx : round ((clampR 0 WINP_MIN WINP_MAX - WINP_MIN) / WINP_STEP) = 400 := by
    rw [hclamp, WINP_MIN, WINP_STEP]
    rw [show ((0 : ℝ) - -40) / 0.1 = ((400 : ℤ) : ℝ) by norm_num]
    exact round_of_intCast 400
  rw [winProbD_fastR_eq_table 0, hidx]
  show winpTable 400 = 1 / 2
  have hm : WINP_MIN + (400 : ℕ) * WINP_STEP = 0 := by
    rw [WINP_MIN, WINP_STEP]
    norm_num
  rw [winpTable, hm, winProb_pD_zero, f32round_half_residue]

end TableLemmas

/-! ### Trial-level lemmas -/

open Classical in
theorem foldl_win_count (l : List (ℚ × ℝ)) (swing : ℝ) (b : ℕ) :
    l.foldl (fun dSeats md =>
        if seatWon md.1 swing md.2 then dSeats + 1 else dSeats) b =
      b + l.countP fun md => decide (seatWon md.1 swing md.2) := by
  induction l generalizing b with
  | nil => simp
  | cons a l ih =>
      simp only [List.foldl_cons, List.countP_cons, ih]
      by_cases h : seatWon a.1 swing a.2
      · simp [h]; omega
      · simp [h]

theorem tsTrialDSeats_eq (baseD : ℕ) (r : ℝ) (margins : List ℚ)
    (u0 : ℝ) (draws : List ℝ) :
    tsTrialDSeats baseD r margins u0 draws =
      simTrialDSeats baseD r margins u0 draws := by
  simp only [tsTrialDSeats, simTrialDSeats, foldl_win_count]

theorem simTrialDSeats_lower (baseD : ℕ) (r : ℝ) (margins : List ℚ)
    (u0 : ℝ) (draws : List ℝ) :
    baseD ≤ simTrialDSeats baseD r margins u0 draws := by
  rw [← tsTrialDSeats_eq]
  simp only [tsTrialDSeats]
  omega

open Classical in
theorem simTrialDSeats_upper (baseD : ℕ) (r : ℝ) (margins : List ℚ)
    (u0 : ℝ) (draws : List ℝ) :
    simTrialDSeats baseD r margins u0 draws ≤ baseD + margins.length := by
  rw [← tsTrialDSeats_eq]
  simp only [tsTrialDSeats]
  have h1 := List.countP_le_length
    (p := fun md : ℚ × ℝ => decide (seatWon md.1 ((u0 * 2 - 1) * r) md.2))
    (l := List.zip margins draws)
  have h2 : (List.zip margins draws).length ≤ margins.length := by
    rw [List.length_zip]; omega
  omega

/-- C3: the table-backed win probability is monotone non-increasing in
the margin, and at margin 0 it returns exactly 0.5 (the exact
Abramowitz-Stegun value at 0 is `1/2 - 5·10⁻¹⁰`; storing it into the
`Float32Array` rounds it to exactly 0.5, which the nearest-bucket lookup
then returns). -/
theorem winProbD_fast_monotone_spec :
    (∀ m1 m2 : ℝ, m1 < m2 → winProbD_fastR m1 ≥ winProbD_fastR m2) ∧
    winProbD_fastR 0 = 0.5 := by
  constructor
  · intro m1 m2 h
    exact winProbD_fastR_antitone h.le
  · rw [winProbD_fastR_zero]
    norm_num

/-- Concrete instantiation of `winProbD_fast_monotone_spec` at the
margin pair `0 < 40`. -/
theorem winProbD_fast_monotone_spec_witness :
    winProbD_fastR 0 ≥ winProbD_fastR 40 ∧ winProbD_fastR 0 = 0.5 :=
  ⟨winProbD_fast_monotone_spec.1 0 40 (by norm_num),
   winProbD_fast_monotone_spec.2⟩

/-- C6: `winProbD_fast` returns exactly 0.5 on every non-finite margin;
margins beyond the table range are clamped (any margin above +40
returns the value at +40, any margin below -40 the value at -40); and
every returned probability lies in `[0, 1]`. -/
theorem winProbD_fast_clamp_spec :
    (∀ m : JSRealNum, m.isFinite = false → winProbD_fast m = 0.5) ∧
    (∀ m : ℝ, 40 < m → winProbD_fastR m = winProbD_fastR 40) ∧
    (∀ m : ℝ, m < -40 → winProbD_fastR m = winProbD_fastR (-40)) ∧
    (∀ m : JSRealNum, 0 ≤ winProbD_fast m ∧ winProbD_fast m ≤ 1) := by
  refine ⟨?_, ?_, ?_, ?_⟩
  · intro m hm
    cases m with
    | fin x => simp [JSRealNum.isFinite] at hm
    | nan => rfl
    | posInf => rfl
    | negInf => rfl
  · intro m hm
    have h : clampR m WINP_MIN WINP_MAX = clampR 40 WINP_MIN WINP_MAX := by
      rw [clampR, clampR, WINP_MIN, WINP_MAX]
      rw [min_eq_left hm.le, min_eq_left (le_refl (40 : ℝ))]
    rw [winProbD_fastR_eq_table m, winProbD_fastR_eq_table 40, h]
  · intro m hm
    have h : clampR m WINP_MIN WINP_MAX = clampR (-40) WINP_MIN WINP_MAX := by
      rw [clampR, clampR, WINP_MIN, WINP_MAX]
      have h1 : min (40 : ℝ) m = m := min_eq_right (by linarith)
      have h2 : min (40 : ℝ) (-40) = -40 := min_eq_right (by norm_num)
      rw [h1, h2, max_eq_left hm.le, max_eq_left (le_refl (-40 : ℝ))]
    rw [winProbD_fastR_eq_table m, winProbD_fastR_eq_table (-40), h]
  · intro m
    cases m with
    | fin x => exact winProbD_fastR_mem x
    | nan => norm_num [winProbD_fast]
    | posInf => norm_num [winProbD_fast]
    | negInf => norm_num [winProbD_fast]

/-- Concrete instantiation of `winProbD_fast_clamp_spec`: `NaN` margin,
clamping at 41 and -41, bounds at margin 0. -/
theorem winProbD_fast_clamp_spec_witness :
    winProbD_fast .nan = 0.5 ∧
    winProbD_fastR 41 = winProbD_fastR 40 ∧
    winProbD_fastR (-41) = winProbD_fastR (-40) ∧
    (0 ≤ winProbD_fast (.fin 0) ∧ winProbD_fast (.fin 0) ≤ 1) :=
  ⟨winProbD_fast_clamp_spec.1 .nan rfl,
   winProbD_fast_clamp_spec.2.1 41 (by norm_num),
   winProbD_fast_clamp_spec.2.2.1 (-41) (by norm_num),
   winProbD_fast_clamp_spec.2.2.2 (.fin 0)⟩

/-- C1 (amended): for both smaller chambers the time-series engine's
per-trial seat total agrees exactly with the current-day simulator on
the same margins and the same draws; the per-trial control-win
classifications agree for the senate, and for the governor agree at
every seat total except an exact tie (25 seats), which the time-series
engine counts as a Democratic control win (`tieIsDem`, keyed on the
chamber name rather than a rules-table field) while the current-day
governor simulator does not. -/
theorem ts_sim_trial_equiv :
    (∀ (mode : Mode) (margins : List ℚ) (u0 : ℝ) (draws : List ℝ),
      tsTrialDSeats (SEAT_RULES mode).baseD SENATE_MC_SWING_RANGE_PTS margins u0 draws =
        simTrialDSeats (SEAT_RULES mode).baseD SENATE_MC_SWING_RANGE_PTS margins u0 draws) ∧
    (∀ dSeats : ℕ, tsIsDemControl .senate dSeats = simIsDemControl .senate dSeats) ∧
    (∀ dSeats : ℕ, dSeats ≠ 25 →
      tsIsDemControl .governor dSeats = simIsDemControl .governor dSeats) := by
  refine ⟨?_, ?_, ?_⟩
  · intro mode margins u0 draws
    exact tsTrialDSeats_eq _ _ _ _ _
  · intro dSeats
    simp [tsIsDemControl, simIsDemControl, tsControlLine, tsTieIsDem]
  · intro dSeats h
    simp [tsIsDemControl, simIsDemControl, tsControlLine, tsTieIsDem, tsTieSeat,
      SEAT_RULES, h]

/-- Concrete instantiation of `ts_sim_trial_equiv`: empty trial for the
senate, and the governor classification agreement at 24 seats. -/
theorem ts_sim_trial_equiv_witness :
    tsTrialDSeats (SEAT_RULES .senate).baseD SENATE_MC_SWING_RANGE_PTS [] (1/2) [] =
      simTrialDSeats (SEAT_RULES .senate).baseD SENATE_MC_SWING_RANGE_PTS [] (1/2) [] ∧
    tsIsDemControl .governor 24 = simIsDemControl .governor 24 :=
  ⟨ts_sim_trial_equiv.1 .senate [] (1/2) [],
   ts_sim_trial_equiv.2.2 24 (by norm_num)⟩

theorem seatWon_margin0_draw0 : seatWon 0 0 0 := by
  show (0 : ℝ) < winProbD_fastR ((0 : ℚ) + 0)
  rw [show (((0 : ℚ) : ℝ) + 0 : ℝ) = 0 by norm_num, winProbD_fastR_zero]
  norm_num

theorem not_seatWon_margin0_draw34 : ¬ seatWon 0 0 (3/4) := by
  show ¬ ((3 / 4 : ℝ) < winProbD_fastR ((0 : ℚ) + 0))
  rw [show (((0 : ℚ) : ℝ) + 0 : ℝ) = 0 by norm_num, winProbD_fastR_zero]
  norm_num

open Classical in
theorem governor_tie_trial :
    tsTrialDSeats (SEAT_RULES .governor).baseD SENATE_MC_SWING_RANGE_PTS
      (List.replicate 36 0) (1/2)
      (List.replicate 19 0 ++ List.replicate 17 (3/4)) = 25 := by
  have hswing : ((1 : ℝ)/2 * 2 - 1) * SENATE_MC_SWING_RANGE_PTS = 0 := by
    norm_num
  have hsplit : (List.replicate 36 (0 : ℚ)) =
      List.replicate 19 (0 : ℚ) ++ List.replicate 17 (0 : ℚ) := by
    rw [← List.replicate_add]
  have hzip : (List.replicate 36 (0 : ℚ)).zip
      (List.replicate 19 (0 : ℝ) ++ List.replicate 17 ((3 : ℝ)/4)) =
      List.replicate 19 ((0 : ℚ), (0 : ℝ)) ++ List.replicate 17 ((0 : ℚ), (3 : ℝ)/4) := by
    rw [hsplit, List.zip_append (by simp), List.zip_replicate', List.zip_replicate']
  show (SEAT_RULES .governor).baseD +
      ((List.replicate 36 (0 : ℚ)).zip
        (List.replicate 19 (0 : ℝ) ++ List.replicate 17 ((3 : ℝ)/4))).countP
        (fun md => decide (seatWon md.1 (((1 : ℝ)/2 * 2 - 1) * SENATE_MC_SWING_RANGE_PTS) md.2)) = 25
  rw [hzip, List.countP_append, List.countP_replicate, List.countP_replicate]
  rw [hswing]
  have h1 : decide (seatWon (0 : ℚ) 0 (0 : ℝ)) = true := by
    simp [seatWon_margin0_draw0]
  have h2 : decide (seatWon (0 : ℚ) 0 ((3 : ℝ)/4)) = true ↔ False := by
    simp [not_seatWon_margin0_draw34]
  simp only [h1, if_true]
  rw [if_neg (by simp [not_seatWon_margin0_draw34])]
  rfl

/-- C1 counterexample: a concrete governor trial — 36 seats, zero swing
draw, 19 seat draws that win and 17 that lose — produces the same seat
total 25 in both engines, yet the time-series engine classifies it as a
Democratic control win while the current-day governor simulator does
not. -/
theorem ts_sim_control_counterexample :
    tsTrialDSeats (SEAT_RULES .governor).baseD SENATE_MC_SWING_RANGE_PTS
        (List.replicate 36 0) (1/2)
        (List.replicate 19 0 ++ List.replicate 17 (3/4)) = 25 ∧
    simTrialDSeats (SEAT_RULES .governor).baseD SENATE_MC_SWING_RANGE_PTS
        (List.replicate 36 0) (1/2)
        (List.replicate 19 0 ++ List.replicate 17 (3/4)) = 25 ∧
    tsIsDemControl .governor 25 = true ∧
    simIsDemControl .governor 25 = false := by
  refine ⟨governor_tie_trial, ?_, rfl, rfl⟩
  rw [← tsTrialDSeats_eq]
  exact governor_tie_trial

open Classical in
theorem governor_all_lose_trial :
    simTrialDSeats (SEAT_RULES .governor).baseD SENATE_MC_SWING_RANGE_PTS
      (List.replicate 36 0) (1/2) (List.replicate 36 (3/4)) = 6 := by
  rw [← tsTrialDSeats_eq]
  have hswing : ((1 : ℝ)/2 * 2 - 1) * SENATE_MC_SWING_RANGE_PTS = 0 := by
    norm_num
  show (SEAT_RULES .governor).baseD +
      ((List.replicate 36 (0 : ℚ)).zip (List.replicate 36 ((3 : ℝ)/4))).countP
        (fun md => decide (seatWon md.1 (((1 : ℝ)/2 * 2 - 1) * SENATE_MC_SWING_RANGE_PTS) md.2)) = 6
  rw [List.zip_replicate', List.countP_replicate, hswing]
  rw [if_neg (by simp [not_seatWon_margin0_draw34])]
  rfl

/-- C2 counterexample: a concrete governor run — 36 seats at margin 0
and 10,000 trials whose seat draws all lose — has every trial seat total
equal to 6, outside the display range `[21, 31]`, so the governor
histogram's counts sum to 0, not to the trial count 10,000. -/
theorem histogram_counts_sum_counterexample :
    (buildSeatHistogram
        ((runSeatSamples 6 SENATE_MC_SWING_RANGE_PTS (List.replicate 36 0)
            (List.replicate NUM_SIMS ((1:ℝ)/2, List.replicate 36 ((3:ℝ)/4)))).map
          fun (k : ℕ) => (k : ℚ)) .governor).counts.sum = 0 ∧
    (List.replicate NUM_SIMS ((1:ℝ)/2, List.replicate 36 ((3:ℝ)/4))).length = NUM_SIMS ∧
    (0 : ℕ) ≠ NUM_SIMS := by
  have hrun : runSeatSamples 6 SENATE_MC_SWING_RANGE_PTS (List.replicate 36 0)
      (List.replicate NUM_SIMS ((1:ℝ)/2, List.replicate 36 ((3:ℝ)/4))) =
      List.replicate NUM_SIMS 6 := by
    rw [runSeatSamples, List.map_replicate]
    congr 1
    exact governor_all_lose_trial
  refine ⟨?_, by simp, by norm_num [NUM_SIMS]⟩
  rw [hrun, List.map_replicate]
  show (buildRangeHistogram (List.replicate NUM_SIMS ((6 : ℕ) : ℚ)) 21 31).counts.sum = 0
  rw [buildRangeHistogram_sum, List.countP_replicate]
  rw [if_neg]
  simp only [decide_eq_true_eq, not_and, not_le]
  intro h
  have : ⌊((6 : ℕ) : ℚ)⌋ = 6 := by norm_num
  omega

/-- C2 (amended): the house binned histogram counts every trial total,
so its counts sum to the number of trials; the senate full-range
histogram spans `[baseD, baseD + upSeats] = [34, 69]`, which contains
every possible trial total of the senate run (35 contested seats), so
its counts also sum to the number of trials; the governor full-range
histogram spans only the display range `[21, 31]`, and its counts sum to
the number of trials whose seat total falls in that range — trials
outside it are dropped, not binned. -/
theorem histogram_counts_sum (margins : List ℚ) (rand : List (ℝ × List ℝ)) :
    (∀ samples : List ℚ,
      (buildSeatHistogram samples .house).counts.sum = samples.length) ∧
    (margins.length = 35 →
      (buildSeatHistogram
          ((runSeatSamples 34 SENATE_MC_SWING_RANGE_PTS margins rand).map
            fun (k : ℕ) => (k : ℚ)) .senate).counts.sum = rand.length) ∧
    ((buildSeatHistogram
        ((runSeatSamples 6 SENATE_MC_SWING_RANGE_PTS margins rand).map
          fun (k : ℕ) => (k : ℚ)) .governor).counts.sum =
      (runSeatSamples 6 SENATE_MC_SWING_RANGE_PTS margins rand).countP
        fun k => decide (21 ≤ k ∧ k ≤ 31)) := by
  refine ⟨?_, ?_, ?_⟩
  · intro samples
    show (buildBinnedHistogram samples 12 2).counts.sum = samples.length
    exact buildBinnedHistogram_sum samples 12 2
  · intro hlen
    show (buildRangeHistogram _ 34 (34 + (100 - 34 - 31))).counts.sum = rand.length
    rw [buildRangeHistogram_sum]
    rw [List.countP_map]
    have hall : ∀ k ∈ runSeatSamples 34 SENATE_MC_SWING_RANGE_PTS margins rand,
        ((fun v : ℚ => decide (34 ≤ ⌊v⌋ ∧ ⌊v⌋ ≤ 34 + (100 - 34 - 31))) ∘
          fun k : ℕ => (k : ℚ)) k = true := by
      intro k hk
      simp only [runSeatSamples, List.mem_map] at hk
      obtain ⟨t, _, ht⟩ := hk
      subst ht
      simp only [Function.comp_apply, Int.floor_natCast, decide_eq_true_eq]
      have hlo := simTrialDSeats_lower 34 SENATE_MC_SWING_RANGE_PTS margins t.1 t.2
      have hhi := simTrialDSeats_upper 34 SENATE_MC_SWING_RANGE_PTS margins t.1 t.2
      rw [hlen] at hhi
      omega
    rw [List.countP_eq_length.mpr hall]
    simp [runSeatSamples]
  · show (buildRangeHistogram _ 21 31).counts.sum = _
    rw [buildRangeHistogram_sum, List.countP_map]
    apply List.countP_congr
    intro k _
    simp only [Function.comp_apply, Int.floor_natCast, decide_eq_true_eq]
    omega

/-- Concrete instantiation of `histogram_counts_sum` at a run with 35
zero margins and one trial. -/
theorem histogram_counts_sum_witness :
    (buildSeatHistogram
        ((runSeatSamples 34 SENATE_MC_SWING_RANGE_PTS (List.replicate 35 0)
            [((1 : ℝ) / 2, List.replicate 35 ((1 : ℝ) / 2))]).map
          fun (k : ℕ) => (k : ℚ)) .senate).counts.sum = 1 :=
  (histogram_counts_sum (List.replicate 35 0)
      [((1 : ℝ) / 2, List.replicate 35 ((1 : ℝ) / 2))]).2.1
    (by simp)

/-! ### Rolling poll windows

Poll observations carry a date (day number) and the two shares.  The
source rows also carry a `sigma` field, which the margin engine never
reads; it is omitted from the model.  The generic-ballot polls
(`{date, dem, rep}`) have the same shape and reuse the same type. -/

/-- A poll observation `{date, D, R}`. -/
structure Obs where
  date : ℤ
  D : ℚ
  R : ℚ
deriving DecidableEq, Repr

def STATE_POLL_WINDOW : ℕ := 6

def GB_WINDOW_POLLS : ℕ := 24

/-- Number of observations dated on or before `d`. -/
def countLE (polls : List Obs) (d : ℤ) : ℕ :=
  (polls.filter fun p => decide (p.date ≤ d)).length

/-- The source's while loop `while (hi < m && polls[hi].date <= dt) hi++`:
advance `hi` over the run of observations dated `≤ d`. -/
def advanceHi (polls : List Obs) (hi : ℕ) (d : ℤ) : ℕ :=
  hi + ((polls.drop hi).takeWhile fun p => decide (p.date ≤ d)).length

/-- Prefix sums `psD[k]` of the D shares (`psD[j+1] = psD[j] + polls[j].D`). -/
def psD (polls : List Obs) (k : ℕ) : ℚ := ((polls.take k).map (·.D)).sum

/-- Prefix sums of the R shares. -/
def psR (polls : List Obs) (k : ℕ) : ℚ := ((polls.take k).map (·.R)).sum

/-- The windowed mean read off at position `hi`:
`lo = max(0, hi - w)`, `cnt = hi - lo`, skip when `cnt <= 0`, else
`(ps[hi] - ps[lo]) / cnt` for each party. -/
def windowVal (polls : List Obs) (w hi : ℕ) : Option (ℚ × ℚ) :=
  let lo := hi - w
  let cnt := hi - lo
  if cnt = 0 then none
  else some ((psD polls hi - psD polls lo) / cnt, (psR polls hi - psR polls lo) / cnt)

/-- Specification-side: the most recent `min(w, available)` observations
dated on or before `d` — the last such entries of the date-sorted
list. -/
def recentOf (polls : List Obs) (w : ℕ) (d : ℤ) : List Obs :=
  let elig := polls.filter fun p => decide (p.date ≤ d)
  elig.drop (elig.length - w)

/-- Specification-side: the arithmetic mean of the most recent
`min(w, available)` observations dated on or before `d`; `none` when
there is none. -/
def recentWindowMean (polls : List Obs) (w : ℕ) (d : ℤ) : Option (ℚ × ℚ) :=
  let recent := recentOf polls w d
  if recent = [] then none
  else some (((recent.map (·.D)).sum) / recent.length,
    ((recent.map (·.R)).sum) / recent.length)

/-- For date-sorted observations the `≤ d` filter is a prefix. -/
theorem filter_le_eq_take (polls : List Obs)
    (hsort : polls.Sorted fun a b => a.date ≤ b.date) (d : ℤ) :
    (polls.filter fun p => decide (p.date ≤ d)) = polls.take (countLE polls d) := by
  induction polls with
  | nil => rfl
  | cons p rest ih =>
      obtain ⟨hall, hrest⟩ := List.sorted_cons.mp hsort
      by_cases hp : p.date ≤ d
      · have hc : countLE (p :: rest) d = countLE rest d + 1 := by
          simp [countLE, hp]
        rw [hc]
        simp only [List.take_succ_cons, List.filter_cons]
        rw [if_pos (by simp [hp]), ih hrest]
      · have hnone : (rest.filter fun p => decide (p.date ≤ d)) = [] := by
          rw [List.filter_eq_nil_iff]
          intro q hq
          simp only [decide_eq_true_eq]
          intro hqd
          exact hp (le_trans (hall q hq) hqd)

        have hc : countLE (p :: rest) d = 0 := by
          simp [countLE, hp, hnone]
        rw [hc]
        simp [List.filter_cons, hp, hnone]

theorem countLE_le_length (polls : List Obs) (d : ℤ) :
    countLE polls d ≤ polls.length :=
  List.length_filter_le _ _

theorem countLE_mono (polls : List Obs) {d d' : ℤ} (h : d ≤ d') :
    countLE polls d ≤ countLE polls d' := by
  induction polls with
  | nil => exact le_rfl
  | cons p rest ih =>
      simp only [countLE, List.filter_cons] at *
      by_cases hp : p.date ≤ d
      · have hp' : p.date ≤ d' := le_trans hp h
        simp [hp, hp']
        omega
      · by_cases hp' : p.date ≤ d'
        · simp [hp, hp']
          omega
        · simp [hp, hp']
          omega

theorem advanceHi_eq (polls : List Obs)
    (hsort : polls.Sorted fun a b => a.date ≤ b.date) (d : ℤ) :
    ∀ hi, hi ≤ countLE polls d → advanceHi polls hi d = countLE polls d := by
  induction polls with
  | nil =>
      intro hi hhi
      have : countLE ([] : List Obs) d = 0 := rfl
      rw [this] at hhi
      interval_cases hi
      rfl
  | cons p rest ih =>
      obtain ⟨hall, hrest⟩ := List.sorted_cons.mp hsort
      intro hi hhi
      cases hi with
      | zero =>
          show 0 + ((p :: rest).takeWhile fun q => decide (q.date ≤ d)).length = _
          rw [zero_add]
          by_cases hp : p.date ≤ d
          · have h1 : ((p :: rest).takeWhile fun q => decide (q.date ≤ d)) =
                p :: (rest.takeWhile fun q => decide (q.date ≤ d)) := by
              simp [List.takeWhile_cons, hp]
            rw [h1]
            have h2 := ih hrest 0 (Nat.zero_le _)
            have h3 : advanceHi rest 0 d =
                (rest.takeWhile fun q => decide (q.date ≤ d)).length := by
              simp [advanceHi]
            have hc : countLE (p :: rest) d = countLE rest d + 1 := by
              simp [countLE, hp]
            rw [hc, ← h2, h3]
            simp
          · have h1 : ((p :: rest).takeWhile fun q => decide (q.date ≤ d)) = [] := by
              simp [List.takeWhile_cons, hp]
            have hc : countLE (p :: rest) d = 0 := by
              have hnone : (rest.filter fun q => decide (q.date ≤ d)) = [] := by
                rw [List.filter_eq_nil_iff]
                intro q hq
                simp only [decide_eq_true_eq]
                intro hqd
                exact hp (le_trans (hall q hq) hqd)
              simp [countLE, hp, hnone]
            rw [h1, hc]
            rfl
      | succ k =>
          have hp : p.date ≤ d := by
            by_contra hp
            have hnone : (rest.filter fun q => decide (q.date ≤ d)) = [] := by
              rw [List.filter_eq_nil_iff]
              intro q hq
              simp only [decide_eq_true_eq]
              intro hqd
              exact hp (le_trans (hall q hq) hqd)
            have hc : countLE (p :: rest) d = 0 := by simp [countLE, hp, hnone]
            omega
          have hc : countLE (p :: rest) d = countLE rest d + 1 := by
            simp [countLE, hp]
          have hk : k ≤ countLE rest d := by omega
          have h2 := ih hrest k hk
          show (k + 1) + ((rest.drop k).takeWhile fun q => decide (q.date ≤ d)).length =
            countLE (p :: rest) d
          have h3 : advanceHi rest k d =
              k + ((rest.drop k).takeWhile fun q => decide (q.date ≤ d)).length := rfl
          rw [hc]
          omega

theorem ps_take_sub (f : Obs → ℚ) (l : List Obs) {lo hi : ℕ} (h : lo ≤ hi) :
    ((l.take hi).map f).sum - ((l.take lo).map f).sum =
      (((l.take hi).drop lo).map f).sum := by
  have h1 : l.take lo = (l.take hi).take lo := by
    rw [List.take_take, min_eq_left h]
  have h2 : (((l.take hi).take lo).map f).sum + (((l.take hi).drop lo).map f).sum =
      ((l.take hi).map f).sum := by
    rw [← List.sum_append, ← List.map_append, List.take_append_drop]
  rw [h1]
  linarith [h2]

/-- Reading the prefix-sum window at `hi = countLE d` yields exactly the
specification mean over the most recent `min(w, available)` eligible
observations. -/
theorem windowVal_eq (polls : List Obs)
    (hsort : polls.Sorted fun a b => a.date ≤ b.date) (w : ℕ) (d : ℤ) :
    windowVal polls w (countLE polls d) = recentWindowMean polls w d := by
  have hfil := filter_le_eq_take polls hsort d
  have hle := countLE_le_length polls d
  set hi := countLE polls d with hhi
  have hlen : (polls.take hi).length = hi := by
    rw [List.length_take]
    omega
  have hrec : recentOf polls w d = (polls.take hi).drop (hi - w) := by
    rw [recentOf]
    simp only [hfil, hlen]
  have hreclen : (recentOf polls w d).length = hi - (hi - w) := by
    rw [hrec, List.length_drop, hlen]
  rw [windowVal, recentWindowMean]
  by_cases hcnt : hi - (hi - w) = 0
  · rw [if_pos hcnt, if_pos]
    rw [← List.length_eq_zero]
    omega
  · rw [if_neg hcnt, if_neg (by rw [← List.length_eq_zero]; omega)]
    have hsubD := ps_take_sub (·.D) polls (Nat.sub_le hi w)
    have hsubR := ps_take_sub (·.R) polls (Nat.sub_le hi w)
    have hlen2 : ((polls.take hi).drop (hi - w)).length = hi - (hi - w) := by
      rw [List.length_drop, hlen]
    congr 1
    simp only [hrec, hlen2, Prod.mk.injEq]
    constructor
    · rw [psD, psD, hsubD]
    · rw [psR, psR, hsubR]

/-- One seat row of `buildPollMatrixForDays`: thread `hi` through the
day list; an unparsable date (`none`) is skipped (`if (!dt) continue`)
without touching `hi`, leaving that day's entry unset. -/
def pollRowAux (polls : List Obs) (w : ℕ) (days : List (Option ℤ)) (hi : ℕ) :
    List (Option (ℚ × ℚ)) :=
  match days with
  | [] => []
  | none :: rest => none :: pollRowAux polls w rest hi
  | some d :: rest =>
      let hiNew := advanceHi polls hi d
      windowVal polls w hiNew :: pollRowAux polls w rest hiNew

/-- Source `buildPollMatrixForDays`, one seat (run-simulations.js:909-951):
`windowSize = max(1, windowN)`; a seat with no polls keeps its NaN-filled
row. -/
def buildPollMatrixRow (polls : List Obs) (windowN : ℕ) (days : List (Option ℤ)) :
    List (Option (ℚ × ℚ)) :=
  if polls = [] then days.map fun _ => none
  else pollRowAux polls (max 1 windowN) days 0

theorem recentWindowMean_nil (w : ℕ) (d : ℤ) :
    recentWindowMean [] w d = none := by
  simp [recentWindowMean, recentOf]

theorem pollRowAux_spec (polls : List Obs)
    (hsort : polls.Sorted fun a b => a.date ≤ b.date) (w : ℕ) :
    ∀ (days : List (Option ℤ)) (hi : ℕ),
      (days.filterMap id).Sorted (· ≤ ·) →
      (∀ d ∈ days.filterMap id, hi ≤ countLE polls d) →
      pollRowAux polls w days hi =
        days.map fun od => od.bind (recentWindowMean polls w) := by
  intro days
  induction days with
  | nil => intro hi _ _; rfl
  | cons od rest ih =>
      intro hi hdays hinv
      cases od with
      | none =>
          have h1 : ((none :: rest : List (Option ℤ)).filterMap id) =
              rest.filterMap id := by simp
          rw [pollRowAux, List.map_cons]
          rw [h1] at hdays hinv
          rw [ih hi hdays hinv]
          rfl
      | some d =>
          have h1 : ((some d :: rest : List (Option ℤ)).filterMap id) =
              d :: rest.filterMap id := by simp
          rw [h1] at hdays hinv
          obtain ⟨hall, hrest⟩ := List.sorted_cons.mp hdays
          have hd : hi ≤ countLE polls d := hinv d (List.mem_cons_self d _)
          have hadv : advanceHi polls hi d = countLE polls d :=
            advanceHi_eq polls hsort d hi hd
          rw [pollRowAux, List.map_cons]
          simp only [hadv, Option.bind_some]
          rw [windowVal_eq polls hsort w d]
          congr 1
          apply ih
          · exact hrest
          · intro d' hd'
            exact countLE_mono polls (hall d' hd')

/-- One output point of `calcLastNPollsSeries`: `{date, dem, rep, count}`. -/
structure GBPoint where
  date : ℤ
  dem : ℚ
  rep : ℚ
  count : ℕ
deriving DecidableEq, Repr

/-- The day loop bounds `for (day = t0; day <= t1; day++)`. -/
def dayRange (t0 t1 : ℤ) : List ℤ :=
  (List.range (t1 + 1 - t0).toNat).map fun (k : ℕ) => t0 + (k : ℤ)

/-- The source's `.sort((a, b) => a.date - b.date)` on the filtered
generic-ballot polls. -/
def sortedGB (gbPolls : List Obs) : List Obs :=
  gbPolls.mergeSort fun a b => decide (a.date ≤ b.date)

/-- The day loop of `calcLastNPollsSeries`: advance `hi`, read the
trailing-`N` window via the prefix sums, skip a day whose window is
empty. -/
def gbSeriesAux (polls : List Obs) (N : ℕ) (days : List ℤ) (hi : ℕ) : List GBPoint :=
  match days with
  | [] => []
  | d :: rest =>
      let hiNew := advanceHi polls hi d
      let lo := hiNew - N
      let cnt := hiNew - lo
      if cnt = 0 then gbSeriesAux polls N rest hiNew
      else ⟨d, (psD polls hiNew - psD polls lo) / cnt,
            (psR polls hiNew - psR polls lo) / cnt, cnt⟩ :: gbSeriesAux polls N rest hiNew

/-- Source `calcLastNPollsSeries` (run-simulations.js:334-367): sort the
polls by date, then emit one trailing-mean point per day from the first
poll date through `max(today, last poll date)`. -/
def calcLastNPollsSeries (gbPolls : List Obs) (N : ℕ) (today : ℤ) : List GBPoint :=
  match sortedGB gbPolls with
  | [] => []
  | p0 :: rest =>
      let t1 := max today (((p0 :: rest).getLast (List.cons_ne_nil p0 rest)).date)
      gbSeriesAux (p0 :: rest) N (dayRange p0.date t1) 0

/-- Specification-side day list of `calcLastNPollsSeries`. -/
def gbDays (gbPolls : List Obs) (today : ℤ) : List ℤ :=
  match sortedGB gbPolls with
  | [] => []
  | p0 :: rest =>
      dayRange p0.date (max today (((p0 :: rest).getLast (List.cons_ne_nil p0 rest)).date))

theorem windowVal_cnt_zero {polls : List Obs} {w hi : ℕ} (h : hi - (hi - w) = 0) :
    windowVal polls w hi = none := by
  simp [windowVal, h]

theorem windowVal_cnt_ne {polls : List Obs} {w hi : ℕ} (h : ¬ hi - (hi - w) = 0) :
    windowVal polls w hi =
      some ((psD polls hi - psD polls (hi - w)) / ((hi - (hi - w) : ℕ) : ℚ),
        (psR polls hi - psR polls (hi - w)) / ((hi - (hi - w) : ℕ) : ℚ)) := by
  simp [windowVal, h]

theorem gbSeriesAux_spec (polls : List Obs)
    (hsort : polls.Sorted fun a b => a.date ≤ b.date) (N : ℕ) :
    ∀ (days : List ℤ) (hi : ℕ),
      days.Sorted (· ≤ ·) →
      (∀ d ∈ days, hi ≤ countLE polls d) →
      gbSeriesAux polls N days hi =
        days.filterMap fun d =>
          (recentWindowMean polls N d).map fun mv =>
            ⟨d, mv.1, mv.2, min (countLE polls d) N⟩ := by
  intro days
  induction days with
  | nil => intro hi _ _; rfl
  | cons d rest ih =>
      intro hi hdays hinv
      obtain ⟨hall, hrest⟩ := List.sorted_cons.mp hdays
      have hd : hi ≤ countLE polls d := hinv d (List.mem_cons_self d _)
      have hadv : advanceHi polls hi d = countLE polls d :=
        advanceHi_eq polls hsort d hi hd
      have htail : gbSeriesAux polls N rest (advanceHi polls hi d) =
          rest.filterMap fun d' =>
            (recentWindowMean polls N d').map fun mv =>
              ⟨d', mv.1, mv.2, min (countLE polls d') N⟩ := by
        apply ih
        · exact hrest
        · intro d' hd'
          rw [hadv]
          exact countLE_mono polls (hall d' hd')
      have hwv := windowVal_eq polls hsort N d
      rw [hadv] at htail
      rw [gbSeriesAux, List.filterMap_cons]
      simp only [hadv]
      by_cases hcnt : countLE polls d - (countLE polls d - N) = 0
      · rw [if_pos hcnt, htail]
        rw [← hwv, windowVal_cnt_zero hcnt]
        rfl
      · rw [if_neg hcnt, htail]
        rw [← hwv, windowVal_cnt_ne hcnt]
        have hmin : countLE polls d - (countLE polls d - N) = min (countLE polls d) N := by
          omega
        rw [hmin]
        rfl

/-- `dayRange` is sorted. -/
theorem dayRange_sorted (t0 t1 : ℤ) : (dayRange t0 t1).Sorted (· ≤ ·) := by
  rw [dayRange, List.Sorted, List.pairwise_map]
  apply List.Pairwise.imp _ (List.pairwise_lt_range _)
  intro a b hab
  omega

theorem sortedGB_sorted (gbPolls : List Obs) :
    (sortedGB gbPolls).Sorted fun a b => a.date ≤ b.date := by
  have h : (List.mergeSort gbPolls fun a b : Obs => decide (a.date ≤ b.date)).Pairwise
      (fun a b : Obs => decide (a.date ≤ b.date)) :=
    List.sorted_mergeSort
      (fun a b c hab hbc => by
        simp only [decide_eq_true_eq] at *
        omega)
      (fun a b => by
        simp only [Bool.or_eq_true, decide_eq_true_eq]
        omega)
      gbPolls
  exact h.imp fun hab => by simpa using hab

theorem buildPollMatrixRow_eq (polls : List Obs) (windowN : ℕ)
    (days : List (Option ℤ))
    (hsort : polls.Sorted fun a b => a.date ≤ b.date)
    (hdays : (days.filterMap id).Sorted (· ≤ ·)) :
    buildPollMatrixRow polls windowN days =
      days.map fun od => od.bind (recentWindowMean polls (max 1 windowN)) := by
  rw [buildPollMatrixRow]
  by_cases hnil : polls = []
  · rw [if_pos hnil, hnil]
    apply List.map_congr_left
    intro od _
    cases od with
    | none => rfl
    | some d =>
        rw [Option.some_bind, recentWindowMean_nil]
  · rw [if_neg hnil]
    exact pollRowAux_spec polls hsort (max 1 windowN) days 0 hdays
      fun d _ => Nat.zero_le _

theorem calcLastNPollsSeries_eq (gbPolls : List Obs) (N : ℕ) (today : ℤ) :
    calcLastNPollsSeries gbPolls N today =
      (gbDays gbPolls today).filterMap fun d =>
        (recentWindowMean (sortedGB gbPolls) N d).map fun mv =>
          ⟨d, mv.1, mv.2, min (countLE (sortedGB gbPolls) d) N⟩ := by
  rw [calcLastNPollsSeries, gbDays]
  cases h : sortedGB gbPolls with
  | nil => rfl
  | cons p0 rest =>
      have hsort : (p0 :: rest).Sorted fun a b : Obs => a.date ≤ b.date := by
        rw [← h]
        exact sortedGB_sorted gbPolls
      rw [← h]
      rw [h]
      apply gbSeriesAux_spec (p0 :: rest) hsort N _ 0 (dayRange_sorted _ _)
        fun d _ => Nat.zero_le _

/-- C7: the per-seat rolling value of `buildPollMatrixForDays` is, for
every day, exactly the arithmetic mean of the most recent
`min(W, available)` observations for that seat dated on or before that
day (`W = max(1, windowN)`), and a day with no such observation gets no
value; likewise `calcLastNPollsSeries` emits, for each day of its range,
the date, mean D and R shares, and count of the most recent at-most-`N`
national polls dated on or before that day. -/
theorem rolling_poll_mean_spec :
    (∀ (polls : List Obs) (windowN : ℕ) (days : List (Option ℤ)),
      polls.Sorted (fun a b => a.date ≤ b.date) →
      (days.filterMap id).Sorted (· ≤ ·) →
      buildPollMatrixRow polls windowN days =
        days.map fun od => od.bind (recentWindowMean polls (max 1 windowN))) ∧
    (∀ (gbPolls : List Obs) (N : ℕ) (today : ℤ),
      calcLastNPollsSeries gbPolls N today =
        (gbDays gbPolls today).filterMap fun d =>
          (recentWindowMean (sortedGB gbPolls) N d).map fun mv =>
            ⟨d, mv.1, mv.2, min (countLE (sortedGB gbPolls) d) N⟩) :=
  ⟨buildPollMatrixRow_eq, calcLastNPollsSeries_eq⟩

/-- Concrete instantiation of `rolling_poll_mean_spec` on a two-poll
seat and two days. -/
theorem rolling_poll_mean_spec_witness :
    buildPollMatrixRow [⟨0, 40, 60⟩, ⟨2, 50, 50⟩] 6 [some 1, some 3] =
      [some 1, some 3].map fun od =>
        od.bind (recentWindowMean [⟨0, 40, 60⟩, ⟨2, 50, 50⟩] (max 1 6)) :=
  rolling_poll_mean_spec.1 [⟨0, 40, 60⟩, ⟨2, 50, 50⟩] 6 [some 1, some 3]
    (by decide) (by decide)

/-! ### The time-series poll fallback (runOddsOverTimeState) -/

/-- One seat of `applyLatestStatePollsToData` (run-simulations.js:437-450):
the mean D and R shares of the seat's last
`min(STATE_POLL_WINDOW, polls.length)` observations over the whole
period; a seat with no polls keeps no entry. -/
def latestStatePollMean (polls : List Obs) : Option (ℚ × ℚ) :=
  if polls = [] then none
  else
    let window := min STATE_POLL_WINDOW polls.length
    let recent := polls.drop (polls.length - window)
    some ((recent.map (·.D)).sum / recent.length,
      (recent.map (·.R)).sum / recent.length)

/-- The `WEIGHTS = { gb: 35, polls: 50, ind: 15 }` table. -/
structure Weights where
  gb : ℚ
  polls : ℚ
  ind : ℚ
deriving DecidableEq, Repr

def WEIGHTS : Weights := ⟨35, 50, 15⟩

/-- The per-seat, per-day margin computation of `runOddsOverTimeState`
(run-simulations.js:837-866): generic-ballot projection, the rolling
poll value with fallback to the seat's whole-period latest mean
(`pollD0`/`pollR0`), indicator projection, the inline weighted combine,
and finally `margins[i] = comb.R - comb.D`.  The weight guards
`wGb > 0` etc. are true for the fixed `WEIGHTS` table; `gbPair` is
always present. -/
def tsDailySeatMargin (gbd gbr ratioD ratioR : ℚ)
    (pmEntry poll0 ind : Option (ℚ × ℚ)) : ℚ :=
  let gbPair := normalizePairQ (gbd * ratioD) (gbr * ratioR)
  let pollPair : Option PartisanPair :=
    match pmEntry with
    | some pv => some (normalizePairQ pv.1 pv.2)
    | none =>
        match poll0 with
        | some pv => some (normalizePairQ pv.1 pv.2)
        | none => none
  let indPair : Option PartisanPair :=
    match ind with
    | some iv => some (normalizePairQ (iv.1 * ratioD) (iv.2 * ratioR))
    | none => none
  let wd := WEIGHTS.gb * gbPair.D +
    (match pollPair with | some p => WEIGHTS.polls * p.D | none => 0) +
    (match indPair with | some p => WEIGHTS.ind * p.D | none => 0)
  let wr := WEIGHTS.gb * gbPair.R +
    (match pollPair with | some p => WEIGHTS.polls * p.R | none => 0) +
    (match indPair with | some p => WEIGHTS.ind * p.R | none => 0)
  let w := WEIGHTS.gb +
    (match pollPair with | some _ => WEIGHTS.polls | none => 0) +
    (match indPair with | some _ => WEIGHTS.ind | none => 0)
  let comb := if 0 < w then normalizePairQ (wd / w) (wr / w) else ⟨50, 50⟩
  comb.R - comb.D

/-- The engine's margin for day index `j`: the rolling-matrix entry for
that day, falling back to the whole-period latest poll mean. -/
def tsSeatMarginOnDay (gbd gbr ratioD ratioR : ℚ) (polls : List Obs)
    (ind : Option (ℚ × ℚ)) (days : List (Option ℤ)) (j : ℕ) : ℚ :=
  tsDailySeatMargin gbd gbr ratioD ratioR
    ((buildPollMatrixRow polls STATE_POLL_WINDOW days).getD j none)
    (latestStatePollMean polls) ind

theorem recentWindowMean_of_future (polls : List Obs) (w : ℕ) (d : ℤ)
    (h : ∀ p ∈ polls, d < p.date) : recentWindowMean polls w d = none := by
  have hfil : (polls.filter fun p => decide (p.date ≤ d)) = [] := by
    rw [List.filter_eq_nil_iff]
    intro p hp
    simp only [decide_eq_true_eq]
    exact not_le.mpr (h p hp)
  simp [recentWindowMean, recentOf, hfil]

/-- C9: in the senate/governor time-series engine the poll signal is not
omitted on dates before a seat's first poll.  (i) The rolling matrix
entry for such a date is empty; (ii) with an empty matrix entry the
margin computation substitutes the seat's whole-period latest rolling
poll mean, behaving exactly as if the rolling window had produced that
mean; (iii) concretely, two poll histories that agree up to day 0 (both
empty there) but differ in a poll taken on day 5 give different combined
margins on day 0 — the margin before the first poll depends on polls
taken after that date. -/
theorem ts_poll_fallback_spec :
    (∀ (polls : List Obs) (days : List (Option ℤ)) (j : ℕ) (d : ℤ),
      polls.Sorted (fun a b => a.date ≤ b.date) →
      (days.filterMap id).Sorted (· ≤ ·) →
      days[j]? = some (some d) →
      (∀ p ∈ polls, d < p.date) →
      (buildPollMatrixRow polls STATE_POLL_WINDOW days)[j]? = some none) ∧
    (∀ (gbd gbr ratioD ratioR : ℚ) (p0 ind : Option (ℚ × ℚ)),
      tsDailySeatMargin gbd gbr ratioD ratioR none p0 ind =
        tsDailySeatMargin gbd gbr ratioD ratioR p0 p0 ind) ∧
    (tsSeatMarginOnDay 50 50 1 1 [⟨5, 60, 40⟩] none [some 0] 0 = -(200 / 17) ∧
      tsSeatMarginOnDay 50 50 1 1 [⟨5, 40, 60⟩] none [some 0] 0 = 200 / 17) := by
  refine ⟨?_, ?_, ?_, ?_⟩
  · intro polls days j d hsort hdays hdj hfuture
    rw [buildPollMatrixRow_eq polls STATE_POLL_WINDOW days hsort hdays]
    rw [List.getElem?_map, hdj]
    rw [Option.map_some', Option.some_bind]
    rw [recentWindowMean_of_future polls _ d hfuture]
  · intro gbd gbr ratioD ratioR p0 ind
    cases p0 with
    | none => rfl
    | some pv => rfl
  · have hrow : (buildPollMatrixRow [⟨5, 60, 40⟩] STATE_POLL_WINDOW [some 0]).getD 0 none =
        none := by
      rw [buildPollMatrixRow_eq _ _ _ (by decide) (by decide)]
      show Option.bind (some 0) (recentWindowMean [⟨5, 60, 40⟩] (max 1 STATE_POLL_WINDOW)) = none
      rw [Option.some_bind, recentWindowMean_of_future _ _ 0 (by decide)]
    rw [tsSeatMarginOnDay, hrow]
    have hlat : latestStatePollMean [⟨5, 60, 40⟩] = some (60, 40) := by
      norm_num [latestStatePollMean, STATE_POLL_WINDOW]
    rw [hlat]
    norm_num [tsDailySeatMargin, normalizePairQ, WEIGHTS]
  · have hrow : (buildPollMatrixRow [⟨5, 40, 60⟩] STATE_POLL_WINDOW [some 0]).getD 0 none =
        none := by
      rw [buildPollMatrixRow_eq _ _ _ (by decide) (by decide)]
      show Option.bind (some 0) (recentWindowMean [⟨5, 40, 60⟩] (max 1 STATE_POLL_WINDOW)) = none
      rw [Option.some_bind, recentWindowMean_of_future _ _ 0 (by decide)]
    rw [tsSeatMarginOnDay, hrow]
    have hlat : latestStatePollMean [⟨5, 40, 60⟩] = some (40, 60) := by
      norm_num [latestStatePollMean, STATE_POLL_WINDOW]
    rw [hlat]
    norm_num [tsDailySeatMargin, normalizePairQ, WEIGHTS]

/-- Concrete instantiation of `ts_poll_fallback_spec`: a single poll on
day 5, queried on day 0. -/
theorem ts_poll_fallback_spec_witness :
    (buildPollMatrixRow [⟨5, 60, 40⟩] STATE_POLL_WINDOW [some 0])[0]? = some none ∧
    tsDailySeatMargin 50 50 1 1 none (some (60, 40)) none =
      tsDailySeatMargin 50 50 1 1 (some (60, 40)) (some (60, 40)) none :=
  ⟨ts_poll_fallback_spec.1 [⟨5, 60, 40⟩] [some 0] 0 0 (by decide) (by decide)
      rfl (by decide),
   ts_poll_fallback_spec.2.1 50 50 1 1 (some (60, 40)) none⟩

/-! ### Columnar encoding of per-seat odds series -/

/-- One per-seat odds point `{date, pDem, margin}`. -/
structure OddsPoint where
  date : ℤ
  pDem : ℚ
  margin : ℚ
deriving DecidableEq, Repr

/-- A seat's encoded series: a dense run (`{s, p, m}`, consecutive
shared-index dates starting at `s`) or a sparse series
(`{i, p, m}`, explicit index array). -/
inductive SeatEncoding where
  | dense (s : ℕ) (p m : List ℚ)
  | sparse (i : List ℕ) (p m : List ℚ)
deriving DecidableEq, Repr

/-- The shared sorted date index: the union of all dates referenced
across all seats (`new Set`, then `.sort()`). -/
def allDatesSorted (mp : List (String × List OddsPoint)) : List ℤ :=
  ((mp.flatMap fun kv => kv.2.map (·.date)).dedup).mergeSort fun a b => decide (a ≤ b)

/-- `indices.every((v, i) => i === 0 || v === indices[i - 1] + 1)`. -/
def isConsecutive : List ℕ → Bool
  | [] => true
  | [_] => true
  | a :: b :: t => decide (b = a + 1) && isConsecutive (b :: t)

/-- Encode one seat (run-simulations.js:1117-1137): indices into the
shared date list plus the parallel value arrays, dense when the indices
are one consecutive run. -/
def encodeSeat (dates : List ℤ) (arr : List OddsPoint) : SeatEncoding :=
  let indices := arr.map fun e => dates.indexOf e.date
  let p := arr.map (·.pDem)
  let m := arr.map (·.margin)
  let dense := decide (indices ≠ []) &&
    decide ((indices.length : ℤ) = (indices.getLastD 0 : ℤ) - (indices.headD 0 : ℤ) + 1) &&
    isConsecutive indices
  if dense then .dense (indices.headD 0) p m else .sparse indices p m

/-- Source `encodeStateOddsColumnar` (run-simulations.js:1106-1141). -/
def encodeStateOddsColumnar (mp : List (String × List OddsPoint)) :
    List ℤ × List (String × SeatEncoding) :=
  let dates := allDatesSorted mp
  (dates, mp.map fun kv => (kv.1, encodeSeat dates kv.2))

/-- Decoder, written from the specification of the encoding: the dense
form pairs consecutive shared-index dates `s, s+1, …` with the `p`/`m`
values; the sparse form pairs `dates[i[k]]` with `p[k]`/`m[k]`. -/
def decodeSeat (dates : List ℤ) : SeatEncoding → List OddsPoint
  | .dense s p m =>
      (List.range p.length).map fun k => ⟨dates.getD (s + k) 0, p.getD k 0, m.getD k 0⟩
  | .sparse i p m =>
      (i.zip (p.zip m)).map fun x => ⟨dates.getD x.1 0, x.2.1, x.2.2⟩

theorem getD_indexOf (dates : List ℤ) {d : ℤ} (h : d ∈ dates) :
    dates.getD (dates.indexOf d) 0 = d := by
  have hlt : dates.indexOf d < dates.length := List.indexOf_lt_length.mpr h
  rw [List.getD_eq_getElem dates 0 hlt]
  exact List.getElem_indexOf hlt

theorem isConsecutive_getD {l : List ℕ} (h : isConsecutive l = true) :
    ∀ k, k < l.length → l.getD k 0 = l.headD 0 + k := by
  induction l with
  | nil => intro k hk; cases hk
  | cons a t ih =>
      intro k hk
      cases t with
      | nil =>
          cases k with
          | zero => rfl
          | succ k' => simp at hk
      | cons b t' =>
          rw [isConsecutive, Bool.and_eq_true, decide_eq_true_eq] at h
          obtain ⟨hab, hcons⟩ := h
          cases k with
          | zero => rfl
          | succ k' =>
              have hk' : k' < (b :: t').length := by
                simp at hk ⊢
                omega
              have := ih hcons k' hk'
              show (b :: t').getD k' 0 = a + (k' + 1)
              rw [this]
              simp only [List.headD_cons]
              omega

theorem decode_encode (dates : List ℤ) (arr : List OddsPoint)
    (h : ∀ e ∈ arr, e.date ∈ dates) :
    decodeSeat dates (encodeSeat dates arr) = arr := by
  rw [encodeSeat]
  set indices := arr.map fun e => dates.indexOf e.date with hind
  by_cases hdense : (decide (indices ≠ []) &&
      decide ((indices.length : ℤ) = (indices.getLastD 0 : ℤ) - (indices.headD 0 : ℤ) + 1) &&
        isConsecutive indices) = true
  · rw [if_pos hdense, decodeSeat]
    rw [Bool.and_eq_true] at hdense
    have hcons := hdense.2
    have hlenp : (arr.map (·.pDem)).length = arr.length := List.length_map _ _
    apply List.ext_getElem
    · simp
    · intro n h1 h2
      have hn : n < arr.length := by simpa using h2
      have hnp : n < (List.range (arr.map (·.pDem)).length).length := by simpa using h1
      rw [List.getElem_map, List.getElem_range]
      have hidx : indices.getD n 0 = dates.indexOf (arr[n].date) := by
        rw [List.getD_eq_getElem indices 0 (by simpa [hind] using hn)]
        simp only [hind, List.getElem_map]
      have hs : indices.headD 0 + n = indices.getD n 0 :=
        (isConsecutive_getD hcons n (by simpa [hind] using hn)).symm
      have hdate : dates.getD (indices.headD 0 + n) 0 = arr[n].date := by
        rw [hs, hidx]
        exact getD_indexOf dates (h _ (List.getElem_mem hn))
      have hp : (arr.map (·.pDem)).getD n 0 = arr[n].pDem := by
        rw [List.getD_eq_getElem _ 0 (by simpa using hn), List.getElem_map]
      have hm : (arr.map (·.margin)).getD n 0 = arr[n].margin := by
        rw [List.getD_eq_getElem _ 0 (by simpa using hn), List.getElem_map]
      rw [hdate, hp, hm]
  · rw [if_neg hdense, decodeSeat]
    have hzip : indices.zip ((arr.map (·.pDem)).zip (arr.map (·.margin))) =
        arr.map fun e => (dates.indexOf e.date, (e.pDem, e.margin)) := by
      rw [hind, List.zip_map', List.zip_map']
    rw [hzip, List.map_map]
    conv_rhs => rw [← List.map_id arr]
    apply List.map_congr_left
    intro e he
    simp only [Function.comp_apply, id_eq]
    rw [getD_indexOf dates (h e he)]

/-- C8: `encodeStateOddsColumnar` is round-trip lossless — decoding each
seat's dense or sparse encoding against the shared date index reproduces
that seat's original ordered list of `{date, pDem, margin}` points
exactly. -/
theorem encode_columnar_roundtrip (mp : List (String × List OddsPoint)) :
    ((encodeStateOddsColumnar mp).2).map
        (fun kv => (kv.1, decodeSeat (encodeStateOddsColumnar mp).1 kv.2)) = mp := by
  simp only [encodeStateOddsColumnar]
  rw [List.map_map]
  conv_rhs => rw [← List.map_id mp]
  apply List.map_congr_left
  intro kv hkv
  simp only [Function.comp_apply, id_eq]
  have h2 : decodeSeat (allDatesSorted mp) (encodeSeat (allDatesSorted mp) kv.2) = kv.2 := by
    apply decode_encode
    intro e he
    have hmem : e.date ∈ mp.flatMap fun kv' => kv'.2.map (·.date) :=
      List.mem_flatMap.mpr ⟨kv, hkv, List.mem_map_of_mem _ he⟩
    rw [allDatesSorted, List.mem_mergeSort, List.mem_dedup]
    exact hmem
  rw [h2]

/-! ### House model independence from house poll inputs -/

/-- A per-chamber slice of the global `DATA` object: generic ballot,
ratio table, and seat-poll table (`{D, R, S}` triples). -/
structure ChamberData where
  gb : Option PartisanPair
  ratios : List (String × PartisanPair)
  polls : List (String × (ℚ × ℚ × ℚ))
deriving DecidableEq, Repr

/-- The global `DATA` object. -/
structure DataState where
  senate : ChamberData
  governor : ChamberData
  house : ChamberData
deriving DecidableEq, Repr

/-- Source `computeGenericBallotState`:
`normalizePair(gb.D * ratio.D, gb.R * ratio.R)`. -/
def computeGenericBallotState (gb ratio : PartisanPair) : PartisanPair :=
  normalizePairQ (gb.D * ratio.D) (gb.R * ratio.R)

/-- A per-district model `{combinedPair, winProb}`. -/
structure HouseModel where
  combinedPair : PartisanPair
  winProb : ℝ × ℝ

/-- Source `getHouseModel` (run-simulations.js:517-525): generic-ballot
fallback chain `house.gb || senate.gb || governor.gb || 50/50`, ratio
lookup, projection, margin, win probability.  The house (or any) poll
tables are never consulted. -/
noncomputable def getHouseModel (data : DataState) (did : String) : Option HouseModel :=
  let gb := ((data.house.gb.orElse fun _ => data.senate.gb).orElse
    fun _ => data.governor.gb).getD ⟨50, 50⟩
  match data.house.ratios.lookup did with
  | none => none
  | some ratio =>
      let combinedPair := computeGenericBallotState gb ratio
      let mFinal := marginRD combinedPair
      some ⟨combinedPair, winProbFromMargin (mFinal : ℝ)⟩

/-- Per-seat margins of `runOddsOverTimeHouse` for one day of the
generic-ballot series (run-simulations.js:731-740): 435 seats,
`100*(r0*b - d0*a)/den` when `den > 0`, else 0, and 0 padding beyond the
ratio table.  (The `isFinite` fallback to ratio 1 cannot fire here: the
table only stores finite ratios.) -/
def houseTSMargins (ratios : List PartisanPair) (d0 r0 : ℚ) : List ℚ :=
  (List.range (SEAT_RULES .house).total).map fun k =>
    match ratios[k]? with
    | some rr =>
        let den := d0 * rr.D + r0 * rr.R
        if 0 < den then 100 * (r0 * rr.R - d0 * rr.D) / den else 0
    | none => 0

/-- The day's margins of `runOddsOverTimeHouse` as a function of the
data state: key-sorted ratio list, then per-seat margins. -/
def runHouseTSMarginsForDay (data : DataState) (d0 r0 : ℚ) : List ℚ :=
  houseTSMargins ((data.house.ratios.mergeSort fun a b => decide (a.1 ≤ b.1)).map (·.2))
    d0 r0

/-- C10: the house per-district model and the house time-series margins
are independent of all poll inputs — two data states agreeing on the
generic-ballot pairs and the house ratio table (but differing arbitrarily
in the house or any other poll tables) produce identical per-district
combined pairs, margins and win probabilities, and identical
time-series margins. -/
theorem house_poll_independence :
    (∀ d1 d2 : DataState, d1.house.gb = d2.house.gb → d1.senate.gb = d2.senate.gb →
      d1.governor.gb = d2.governor.gb → d1.house.ratios = d2.house.ratios →
      ∀ did, getHouseModel d1 did = getHouseModel d2 did) ∧
    (∀ d1 d2 : DataState, d1.house.ratios = d2.house.ratios →
      ∀ d0 r0, runHouseTSMarginsForDay d1 d0 r0 = runHouseTSMarginsForDay d2 d0 r0) := by
  constructor
  · intro d1 d2 h1 h2 h3 h4 did
    rw [getHouseModel, getHouseModel, h1, h2, h3, h4]
  · intro d1 d2 h4 d0 r0
    rw [runHouseTSMarginsForDay, runHouseTSMarginsForDay, h4]

/-- Concrete instantiation of `house_poll_independence`: two data states
identical except that the first carries a house district poll the second
lacks. -/
theorem house_poll_independence_witness :
    getHouseModel
        ⟨⟨none, [], []⟩, ⟨none, [], []⟩,
          ⟨some ⟨52, 48⟩, [("AZ01", ⟨1, 1⟩)], [("AZ01", (55, 45, 3))]⟩⟩ "AZ01" =
      getHouseModel
        ⟨⟨none, [], []⟩, ⟨none, [], []⟩,
          ⟨some ⟨52, 48⟩, [("AZ01", ⟨1, 1⟩)], []⟩⟩ "AZ01" :=
  house_poll_independence.1 _ _ rfl rfl rfl rfl "AZ01"

end Sim
